import Mathlib

/-! Resource management for the cc light platform.

A shallow embedding of `ql/arch/cc_light_resource_manager.h`: the four resource
variants (`qubit_resource_t`, `qwg_resource_t`, `meas_resource_t`,
`edge_resource_t`) and the `resource_manager_t` that owns them, followed by the
properties established about them.

Conventions of the embedding.

* `size_t` values are natural numbers; the one arithmetic operation of the
  source, `op_start_cycle + operation_duration`, wraps at `2 ^ 64` (`size_add`).
* `std::vector<T>` is a `List T`.  Reading or writing past the end is undefined
  in the source; `vec_get` then yields the default value and `vec_set` leaves the
  vector alone, and the theorems assume indices in range (`wf`).  The section on
  subscripts with a range check repeats the operations with every subscript
  checked and shows when the two agree.
* `std::map<K,V>` is an association list with unique keys.  `m[k]` on an absent
  key inserts a value-initialised entry; where a map is only ever read through
  `m[k]` that insertion cannot be observed and the map is left unchanged
  (`map_at`); for `qubits2edge`, which is also searched with `find`, the
  insertion is kept (`map_touch`).
* `throw ql::exception(msg, false)` is `Except.error msg`.
* `resource_manager_t` is first the list of the variants its pointers refer to;
  where the pointers themselves matter (copy constructor, copy assignment) the
  objects live in a `store` and a manager is its vector of addresses.
-/

set_option linter.unusedVariables false

namespace ql
namespace arch

/-! ## Machine integers, vectors, maps -/

/-- Number of values of the type `size_t`. -/
def SIZE_MOD : Nat := 2 ^ 64

/-- Addition of two `size_t` values. -/
def size_add (a b : Nat) : Nat := (a + b) % SIZE_MOD

/-- Value of `v[i]` for a `std::vector<size_t>`. -/
def vec_get (v : List Nat) (i : Nat) : Nat := v.getD i 0

/-- Value of `v[i]` for a `std::vector<std::string>`. -/
def vec_get_str (v : List String) (i : Nat) : String := v.getD i ""

/-- Effect of `v[i] = x`. -/
def vec_set {α : Type} (v : List α) (i : Nat) (x : α) : List α := v.set i x

/-- Result of `m.find(k)`: the mapped value, or `none` for `m.end()`. -/
def map_find {κ β : Type} [DecidableEq κ] : List (κ × β) → κ → Option β
  | [], _ => none
  | (k', v) :: m, k => if k' = k then some v else map_find m k

/-- Effect of `m[k] = v`. -/
def map_assign {κ β : Type} [DecidableEq κ] : List (κ × β) → κ → β → List (κ × β)
  | [], k, v => [(k, v)]
  | (k', v') :: m, k, v => if k' = k then (k, v) :: m else (k', v') :: map_assign m k v

/-- Value of `m[k]`, where `dflt` is the value-initialised element. -/
def map_at {κ β : Type} [DecidableEq κ] (m : List (κ × β)) (k : κ) (dflt : β) : β :=
  (map_find m k).getD dflt

/-- Effect on the map of evaluating `m[k]`: an absent key is inserted. -/
def map_touch {κ β : Type} [DecidableEq κ] (m : List (κ × β)) (k : κ) (dflt : β) :
    List (κ × β) :=
  match map_find m k with
  | some _ => m
  | none => map_assign m k dflt

/-- Effect of `m[k].push_back(x)`. -/
def map_push_back {κ β : Type} [DecidableEq κ] (m : List (κ × List β)) (k : κ) (x : β) :
    List (κ × List β) :=
  map_assign m k (map_at m k [] ++ [x])

/-! ## External collaborators -/

/-- Modelled from the spec: the instruction `ql::gate`, whose declaration is not
part of the resource manager; only its name and its qubit operands are read. -/
structure gate where
  name : String
  operands : List Nat

/-- Modelled from the spec: one entry `platform.resources[name]` of the platform
configuration: its `count` and its `connection_map`, the latter as the list of
`(stoi(key), value)` entries in the iteration order of the JSON object. -/
structure resource_json where
  count : Nat
  connection_map : List (Nat × List Nat)

/-- Modelled from the spec: the part of `ql::quantum_platform` read here:
the JSON object `resources` as its list of `(key, value)` entries in iteration
order, and the `(src, dst, id)` triples of `topology["edges"]`. -/
structure quantum_platform where
  resources : List (String × resource_json)
  topology_edges : List (Nat × Nat × Nat)

/-- The object type of `nlohmann::json` is a `std::map` keyed by `std::string`, so
that `platform.resources.begin()` to `end()` visits the entries in strictly
increasing order of their keys. -/
def quantum_platform.json_ordered (platform : quantum_platform) : Prop :=
  platform.resources.Pairwise (fun a b => a.1 < b.1)

/-- Value of `platform.resources[name]`. -/
def quantum_platform.resources_at (platform : quantum_platform) (name : String) :
    resource_json :=
  map_at platform.resources name ⟨0, []⟩

/-- Loop `for (it : constraints) for (q : it.value()) qubit2unit[q] = stoi(it.key())`
shared by the constructors of `qwg_resource_t` and `meas_resource_t`. -/
def ingest_units (constraints : List (Nat × List Nat)) : List (Nat × Nat) :=
  constraints.foldl
    (fun m it => it.2.foldl (fun m q => map_assign m q it.1) m) []

/-! ## qubit_resource_t -/

structure qubit_resource_t where
  count : Nat
  /-- is busy till cycle -/
  state : List Nat

/-- Constructor `qubit_resource_t(platform)`. -/
def qubit_resource_t.create (platform : quantum_platform) : qubit_resource_t :=
  let count := (platform.resources_at "qubits").count
  { count := count, state := List.replicate count 0 }

/-- Loop of `qubit_resource_t::available` over the operands. -/
def qubit_resource_t.available_loop (state : List Nat) (op_start_cycle : Nat) :
    List Nat → Bool
  | [] => true
  | q :: qs =>
    if op_start_cycle < vec_get state q then false
    else qubit_resource_t.available_loop state op_start_cycle qs

def qubit_resource_t.available (r : qubit_resource_t) (op_start_cycle : Nat) (ins : gate)
    (operation_name operation_type instruction_type : String) (operation_duration : Nat) :
    Bool :=
  qubit_resource_t.available_loop r.state op_start_cycle ins.operands

def qubit_resource_t.reserve (r : qubit_resource_t) (op_start_cycle : Nat) (ins : gate)
    (operation_name operation_type instruction_type : String) (operation_duration : Nat) :
    qubit_resource_t :=
  let state := ins.operands.foldl
    (fun state q => vec_set state q (size_add op_start_cycle operation_duration)) r.state
  { r with state := state }

/-! ## qwg_resource_t -/

structure qwg_resource_t where
  count : Nat
  /-- is busy till cycle -/
  state : List Nat
  operations : List String
  qubit2qwg : List (Nat × Nat)

/-- Constructor `qwg_resource_t(platform)`. -/
def qwg_resource_t.create (platform : quantum_platform) : qwg_resource_t :=
  let cfg := platform.resources_at "qwgs"
  { count := cfg.count
    state := List.replicate cfg.count 0
    operations := List.replicate cfg.count ""
    qubit2qwg := ingest_units cfg.connection_map }

/-- Loop of `qwg_resource_t::available` over the operands. -/
def qwg_resource_t.available_loop (r : qwg_resource_t) (op_start_cycle : Nat)
    (operation_name : String) : List Nat → Bool
  | [] => true
  | q :: qs =>
    if op_start_cycle < vec_get r.state (map_at r.qubit2qwg q 0) then
      if vec_get_str r.operations (map_at r.qubit2qwg q 0) ≠ operation_name then false
      else qwg_resource_t.available_loop r op_start_cycle operation_name qs
    else qwg_resource_t.available_loop r op_start_cycle operation_name qs

def qwg_resource_t.available (r : qwg_resource_t) (op_start_cycle : Nat) (ins : gate)
    (operation_name operation_type instruction_type : String) (operation_duration : Nat) :
    Bool :=
  let is_mw := (operation_type == "mw")
  if is_mw then qwg_resource_t.available_loop r op_start_cycle operation_name ins.operands
  else true

/-- Body of the loop of `qwg_resource_t::reserve` for one operand. -/
def qwg_resource_t.reserve_step (op_start_cycle : Nat) (operation_name : String)
    (operation_duration : Nat) (r : qwg_resource_t) (q : Nat) : qwg_resource_t :=
  let state :=
    if vec_get r.state (map_at r.qubit2qwg q 0) < size_add op_start_cycle operation_duration
    then vec_set r.state (map_at r.qubit2qwg q 0) (size_add op_start_cycle operation_duration)
    else r.state
  { r with
    state := state
    operations := vec_set r.operations (map_at r.qubit2qwg q 0) operation_name }

def qwg_resource_t.reserve (r : qwg_resource_t) (op_start_cycle : Nat) (ins : gate)
    (operation_name operation_type instruction_type : String) (operation_duration : Nat) :
    qwg_resource_t :=
  let is_mw := (operation_type == "mw")
  if is_mw then
    ins.operands.foldl
      (qwg_resource_t.reserve_step op_start_cycle operation_name operation_duration) r
  else r

/-! ## meas_resource_t -/

structure meas_resource_t where
  count : Nat
  /-- last measurement start cycle -/
  start_cycle : List Nat
  /-- is busy till cycle -/
  state : List Nat
  qubit2meas : List (Nat × Nat)

/-- Constructor `meas_resource_t(platform)`. -/
def meas_resource_t.create (platform : quantum_platform) : meas_resource_t :=
  let cfg := platform.resources_at "meas_units"
  { count := cfg.count
    start_cycle := List.replicate cfg.count 0
    state := List.replicate cfg.count 0
    qubit2meas := ingest_units cfg.connection_map }

/-- Loop of `meas_resource_t::available` over the operands. -/
def meas_resource_t.available_loop (r : meas_resource_t) (op_start_cycle : Nat) :
    List Nat → Bool
  | [] => true
  | q :: qs =>
    if op_start_cycle ≠ vec_get r.start_cycle (map_at r.qubit2meas q 0) then
      if op_start_cycle < vec_get r.state (map_at r.qubit2meas q 0) then false
      else meas_resource_t.available_loop r op_start_cycle qs
    else meas_resource_t.available_loop r op_start_cycle qs

def meas_resource_t.available (r : meas_resource_t) (op_start_cycle : Nat) (ins : gate)
    (operation_name operation_type instruction_type : String) (operation_duration : Nat) :
    Bool :=
  let is_measure := (operation_type == "readout")
  if is_measure then meas_resource_t.available_loop r op_start_cycle ins.operands
  else true

/-- Body of the loop of `meas_resource_t::reserve` for one operand. -/
def meas_resource_t.reserve_step (op_start_cycle operation_duration : Nat)
    (r : meas_resource_t) (q : Nat) : meas_resource_t :=
  { r with
    start_cycle := vec_set r.start_cycle (map_at r.qubit2meas q 0) op_start_cycle
    state := vec_set r.state (map_at r.qubit2meas q 0)
      (size_add op_start_cycle operation_duration) }

def meas_resource_t.reserve (r : meas_resource_t) (op_start_cycle : Nat) (ins : gate)
    (operation_name operation_type instruction_type : String) (operation_duration : Nat) :
    meas_resource_t :=
  let is_measure := (operation_type == "readout")
  if is_measure then
    ins.operands.foldl (meas_resource_t.reserve_step op_start_cycle operation_duration) r
  else r

/-! ## edge_resource_t -/

structure edge_resource_t where
  count : Nat
  /-- is busy till cycle -/
  state : List Nat
  qubits2edge : List ((Nat × Nat) × Nat)
  edge2edges : List (Nat × List Nat)

/-- Loop of the constructor over `platform.topology["edges"]`. -/
def edge_resource_t.ingest_topology :
    List (Nat × Nat × Nat) → List ((Nat × Nat) × Nat) → Except String (List ((Nat × Nat) × Nat))
  | [], qubits2edge => .ok qubits2edge
  | (s, d, e) :: rest, qubits2edge =>
    match map_find qubits2edge (s, d) with
    | some _ => .error "[x] Error : re-defining edge !"
    | none => edge_resource_t.ingest_topology rest (map_assign qubits2edge (s, d) e)

/-- Loop of the constructor over the `connection_map` of the edges:
`for (it : constraints) for (e : it.value()) edge2edges[e].push_back(stoi(it.key()))`. -/
def edge_resource_t.ingest_connection_map (constraints : List (Nat × List Nat)) :
    List (Nat × List Nat) :=
  constraints.foldl
    (fun m it => it.2.foldl (fun m e => map_push_back m e it.1) m) []

/-- Constructor `edge_resource_t(platform)`. -/
def edge_resource_t.create (platform : quantum_platform) : Except String edge_resource_t :=
  let cfg := platform.resources_at "edges"
  match edge_resource_t.ingest_topology platform.topology_edges [] with
  | .error msg => .error msg
  | .ok qubits2edge =>
    .ok { count := cfg.count
          state := List.replicate cfg.count 0
          qubits2edge := qubits2edge
          edge2edges := edge_resource_t.ingest_connection_map cfg.connection_map }

/-- Loop of `edge_resource_t::available` over `edges2check`. -/
def edge_resource_t.available_loop (state : List Nat) (op_start_cycle : Nat) :
    List Nat → Bool
  | [] => true
  | e :: es =>
    if op_start_cycle < vec_get state e then false
    else edge_resource_t.available_loop state op_start_cycle es

def edge_resource_t.available (r : edge_resource_t) (op_start_cycle : Nat) (ins : gate)
    (operation_name operation_type instruction_type : String) (operation_duration : Nat) :
    Except String Bool :=
  let is_flux := (operation_type == "flux")
  if is_flux then
    let q0 := ins.operands.getD 0 0
    let q1 := ins.operands.getD 1 0
    match map_find r.qubits2edge (q0, q1) with
    | some edge_no =>
      let edges2check := map_at r.edge2edges edge_no [] ++ [edge_no]
      .ok (edge_resource_t.available_loop r.state op_start_cycle edges2check)
    | none =>
      .error ("[x] Error : Use of illegal edge" ++ toString q0 ++ "->" ++ toString q1
        ++ "in operation:" ++ ins.name ++ " !")
  else .ok true

def edge_resource_t.reserve (r : edge_resource_t) (op_start_cycle : Nat) (ins : gate)
    (operation_name operation_type instruction_type : String) (operation_duration : Nat) :
    edge_resource_t :=
  let is_flux := (operation_type == "flux")
  if is_flux then
    let q0 := ins.operands.getD 0 0
    let q1 := ins.operands.getD 1 0
    let edge_no := map_at r.qubits2edge (q0, q1) 0
    let state := vec_set r.state edge_no (size_add op_start_cycle operation_duration)
    let state := (map_at r.edge2edges edge_no []).foldl
      (fun state e => vec_set state e (size_add op_start_cycle operation_duration)) state
    { r with
      state := state
      qubits2edge := map_touch r.qubits2edge (q0, q1) 0 }
  else r

/-- Every index the edge resource uses is in range: the state vector has `count`
entries, and the edge ids of the pair-to-edge map and of the stored conflict
lists are below `count`. -/
def edge_resource_t.wf (r : edge_resource_t) : Prop :=
  r.state.length = r.count ∧ (∀ p ∈ r.qubits2edge, p.2 < r.count) ∧
    ∀ p ∈ r.edge2edges, ∀ e ∈ p.2, e < r.count

/-! ## resource_manager_t -/

/-- The closed set of classes derived from `resource_t`. -/
inductive resource_t where
  | qubit (r : qubit_resource_t)
  | qwg (r : qwg_resource_t)
  | meas (r : meas_resource_t)
  | edge (r : edge_resource_t)

/-- Virtual call `rptr->available(...)`. -/
def resource_t.available (rptr : resource_t) (op_start_cycle : Nat) (ins : gate)
    (operation_name operation_type instruction_type : String) (operation_duration : Nat) :
    Except String Bool :=
  match rptr with
  | .qubit r => .ok (r.available op_start_cycle ins operation_name operation_type
      instruction_type operation_duration)
  | .qwg r => .ok (r.available op_start_cycle ins operation_name operation_type
      instruction_type operation_duration)
  | .meas r => .ok (r.available op_start_cycle ins operation_name operation_type
      instruction_type operation_duration)
  | .edge r => r.available op_start_cycle ins operation_name operation_type
      instruction_type operation_duration

/-- Virtual call `rptr->reserve(...)`. -/
def resource_t.reserve (rptr : resource_t) (op_start_cycle : Nat) (ins : gate)
    (operation_name operation_type instruction_type : String) (operation_duration : Nat) :
    resource_t :=
  match rptr with
  | .qubit r => .qubit (r.reserve op_start_cycle ins operation_name operation_type
      instruction_type operation_duration)
  | .qwg r => .qwg (r.reserve op_start_cycle ins operation_name operation_type
      instruction_type operation_duration)
  | .meas r => .meas (r.reserve op_start_cycle ins operation_name operation_type
      instruction_type operation_duration)
  | .edge r => .edge (r.reserve op_start_cycle ins operation_name operation_type
      instruction_type operation_duration)

/-- Value of the member `name`, which the constructor of each derived class
passes to `resource_t(std::string n)`. -/
def resource_t.name : resource_t → String
  | .qubit _ => "qubits"
  | .qwg _ => "qwgs"
  | .meas _ => "meas_units"
  | .edge _ => "edges"

structure resource_manager_t where
  resource_ptrs : List resource_t

/-- Loop of the constructor `resource_manager_t(platform)` over the entries of
`platform.resources`; `resource_ptrs` collects the variants pushed so far. -/
def resource_manager_t.create_loop (platform : quantum_platform) :
    List (String × resource_json) → List resource_t → Except String (List resource_t)
  | [], resource_ptrs => .ok resource_ptrs
  | (n, _) :: rest, resource_ptrs =>
    if n = "qubits" then
      resource_manager_t.create_loop platform rest
        (resource_ptrs ++ [.qubit (qubit_resource_t.create platform)])
    else if n = "qwgs" then
      resource_manager_t.create_loop platform rest
        (resource_ptrs ++ [.qwg (qwg_resource_t.create platform)])
    else if n = "meas_units" then
      resource_manager_t.create_loop platform rest
        (resource_ptrs ++ [.meas (meas_resource_t.create platform)])
    else if n = "edges" then
      match edge_resource_t.create platform with
      | .error msg => .error msg
      | .ok ares => resource_manager_t.create_loop platform rest (resource_ptrs ++ [.edge ares])
    else .error ("[x] Error : Un-modelled resource: " ++ n ++ " !")

/-- Constructor `resource_manager_t(platform)`. -/
def resource_manager_t.create (platform : quantum_platform) :
    Except String resource_manager_t :=
  match resource_manager_t.create_loop platform platform.resources [] with
  | .error msg => .error msg
  | .ok resource_ptrs => .ok { resource_ptrs := resource_ptrs }

/-- Loop of `resource_manager_t::available` over `resource_ptrs`. -/
def resource_manager_t.available_loop (op_start_cycle : Nat) (ins : gate)
    (operation_name operation_type instruction_type : String) (operation_duration : Nat) :
    List resource_t → Except String Bool
  | [] => .ok true
  | rptr :: rest =>
    match rptr.available op_start_cycle ins operation_name operation_type instruction_type
        operation_duration with
    | .error msg => .error msg
    | .ok false => .ok false
    | .ok true =>
      resource_manager_t.available_loop op_start_cycle ins operation_name operation_type
        instruction_type operation_duration rest

def resource_manager_t.available (m : resource_manager_t) (op_start_cycle : Nat) (ins : gate)
    (operation_name operation_type instruction_type : String) (operation_duration : Nat) :
    Except String Bool :=
  resource_manager_t.available_loop op_start_cycle ins operation_name operation_type
    instruction_type operation_duration m.resource_ptrs

def resource_manager_t.reserve (m : resource_manager_t) (op_start_cycle : Nat) (ins : gate)
    (operation_name operation_type instruction_type : String) (operation_duration : Nat) :
    resource_manager_t :=
  { resource_ptrs := m.resource_ptrs.map (fun rptr =>
      rptr.reserve op_start_cycle ins operation_name operation_type instruction_type
        operation_duration) }

/-! ## Scheduling passes

The scheduler calls `available` and, when the answer is `true`, `reserve` with the
same arguments.  A pass is the list of the calls it reserved, in order. -/

/-- The arguments of one `available` / `reserve` call. -/
structure call where
  op_start_cycle : Nat
  ins : gate
  operation_name : String
  operation_type : String
  instruction_type : String
  operation_duration : Nat

/-- Cycle at which the instruction of a call ends: the instruction occupies the
half-open interval from `op_start_cycle` to `call.finish`. -/
def call.finish (x : call) : Nat := x.op_start_cycle + x.operation_duration

/-- Half-open interval of cycles occupied by the instruction of a call. -/
def call.interval (x : call) : Set Nat := Set.Ico x.op_start_cycle x.finish

/-- State after reserving every call of a pass in order. -/
def run {σ : Type} (resv : σ → call → σ) (r : σ) (xs : List call) : σ :=
  xs.foldl resv r

/-- Every call of the pass was answered `true` by `available` on the state just
before its `reserve`. -/
def accepts {σ : Type} (avail : σ → call → Bool) (resv : σ → call → σ) :
    σ → List call → Bool
  | _, [] => true
  | r, x :: xs => avail r x && accepts avail resv (resv r x) xs

def qubit_resource_t.available_call (r : qubit_resource_t) (x : call) : Bool :=
  r.available x.op_start_cycle x.ins x.operation_name x.operation_type x.instruction_type
    x.operation_duration

def qubit_resource_t.reserve_call (r : qubit_resource_t) (x : call) : qubit_resource_t :=
  r.reserve x.op_start_cycle x.ins x.operation_name x.operation_type x.instruction_type
    x.operation_duration

def qwg_resource_t.available_call (r : qwg_resource_t) (x : call) : Bool :=
  r.available x.op_start_cycle x.ins x.operation_name x.operation_type x.instruction_type
    x.operation_duration

def qwg_resource_t.reserve_call (r : qwg_resource_t) (x : call) : qwg_resource_t :=
  r.reserve x.op_start_cycle x.ins x.operation_name x.operation_type x.instruction_type
    x.operation_duration

def meas_resource_t.available_call (r : meas_resource_t) (x : call) : Bool :=
  r.available x.op_start_cycle x.ins x.operation_name x.operation_type x.instruction_type
    x.operation_duration

def meas_resource_t.reserve_call (r : meas_resource_t) (x : call) : meas_resource_t :=
  r.reserve x.op_start_cycle x.ins x.operation_name x.operation_type x.instruction_type
    x.operation_duration

/-- The answer of `edge_resource_t::available` is `true` (no exception, not `false`). -/
def edge_resource_t.available_call (r : edge_resource_t) (x : call) : Bool :=
  match r.available x.op_start_cycle x.ins x.operation_name x.operation_type
      x.instruction_type x.operation_duration with
  | .ok b => b
  | .error _ => false

def edge_resource_t.reserve_call (r : edge_resource_t) (x : call) : edge_resource_t :=
  r.reserve x.op_start_cycle x.ins x.operation_name x.operation_type x.instruction_type
    x.operation_duration

/-- The answer of `resource_manager_t::available` is `true` (no exception, not `false`). -/
def resource_manager_t.available_call (m : resource_manager_t) (x : call) : Bool :=
  match m.available x.op_start_cycle x.ins x.operation_name x.operation_type
      x.instruction_type x.operation_duration with
  | .ok b => b
  | .error _ => false

def resource_manager_t.reserve_call (m : resource_manager_t) (x : call) :
    resource_manager_t :=
  m.reserve x.op_start_cycle x.ins x.operation_name x.operation_type x.instruction_type
    x.operation_duration

/-- Two qubits. -/
def c1_platform : quantum_platform := ⟨[("qubits", ⟨2, []⟩)], []⟩

/-- A single-qubit gate on qubit 0 over cycles 0 and 1, then a two-qubit gate on
qubits 0 and 1 at cycle 2. -/
def c1_pass : List call :=
  [⟨0, ⟨"x", [0]⟩, "x", "mw", "", 2⟩, ⟨2, ⟨"cz", [0, 1]⟩, "cz", "flux", "", 1⟩]

/-- A gate on qubit 0 over cycles 0 to 9, then a gate on qubit 0 at cycle 10 whose
duration `2 ^ 64 - 10` makes `op_start_cycle + operation_duration` wrap to 0, and
then a gate on qubit 0 at cycle 5. -/
def c1_overflow_pass : List call :=
  [⟨0, ⟨"x", [0]⟩, "x", "mw", "", 10⟩,
   ⟨10, ⟨"wait", [0]⟩, "wait", "none", "", 18446744073709551606⟩,
   ⟨5, ⟨"y", [0]⟩, "y", "mw", "", 1⟩]

/-- One measurement unit serving qubits 0 and 1. -/
def c2_platform : quantum_platform := ⟨[("meas_units", ⟨1, [(0, [0, 1])]⟩)], []⟩

/-- Measurement of qubit 0 at cycle 0 lasting 10 cycles. -/
def c2_long : call := ⟨0, ⟨"measure", [0]⟩, "measure", "readout", "", 10⟩

/-- Measurement of qubit 1 at cycle 0 lasting 1 cycle. -/
def c2_short : call := ⟨0, ⟨"measure", [1]⟩, "measure", "readout", "", 1⟩

/-- One drive line serving qubits 0, 1 and 2. -/
def c3_platform : quantum_platform := ⟨[("qwgs", ⟨1, [(0, [0, 1, 2])]⟩)], []⟩

/-- Two measurement units, unit 0 serving qubit 2 and unit 1 serving qubits 0 and 1. -/
def c5_platform : quantum_platform :=
  ⟨[("meas_units", ⟨2, [(0, [2]), (1, [0, 1])]⟩)], []⟩

/-- Measurement of qubit 0 at cycle 5 lasting 1 cycle. -/
def c6_late : call := ⟨5, ⟨"measure", [0]⟩, "measure", "readout", "", 1⟩

/-- Three edges for the pairs (0, 1), (1, 2) and (2, 3); the stored conflict list
of edge 0 is `[1]`, the other lists are empty. -/
def c8_resource : edge_resource_t :=
  { count := 3, state := [0, 4, 0], qubits2edge := [((0, 1), 0), ((1, 2), 1), ((2, 3), 2)],
    edge2edges := [(0, [1])] }

/-- Two qubits and one edge for the pair (0, 1). -/
def c10_platform : quantum_platform :=
  ⟨[("edges", ⟨1, []⟩), ("qubits", ⟨2, []⟩)], [(0, 1, 0)]⟩

/-- The resource manager constructed from `c10_platform`. -/
def c10_manager : resource_manager_t :=
  ⟨[.edge ⟨1, [0], [((0, 1), 0)], []⟩, .qubit ⟨2, [0, 0]⟩]⟩

/-- A flux gate on the pair (0, 1) over cycles 0 to 3. -/
def c10_pass : List call := [⟨0, ⟨"cz", [0, 1]⟩, "cz", "flux", "", 4⟩]

/-- Two qubits, one drive line serving both, and one edge for the pair (0, 1)
with no conflicting edges. -/
def c13_platform : quantum_platform :=
  ⟨[("edges", ⟨1, []⟩), ("qubits", ⟨2, []⟩), ("qwgs", ⟨1, [(0, [0, 1])]⟩)], [(0, 1, 0)]⟩

/-- The resource manager constructed from `c13_platform`. -/
def c13_manager : resource_manager_t :=
  ⟨[.edge ⟨1, [0], [((0, 1), 0)], []⟩, .qubit ⟨2, [0, 0]⟩, .qwg ⟨1, [0], [""], [(0, 0), (1, 0)]⟩]⟩

/-- Two edges with the same id 0, for the pairs (0, 1) and (1, 0). -/
def c14_platform : quantum_platform :=
  ⟨[("edges", ⟨1, []⟩)], [(0, 1, 0), (1, 0, 0)]⟩

/-- The edge resource constructed from `c14_platform`. -/
def c14_resource : edge_resource_t :=
  { count := 1, state := [0], qubits2edge := [((0, 1), 0), ((1, 0), 0)], edge2edges := [] }

/-- Two edges with the ids 0 and 1, for the pairs (0, 1) and (1, 0). -/
def c14_distinct_platform : quantum_platform :=
  ⟨[("edges", ⟨2, []⟩)], [(0, 1, 0), (1, 0, 1)]⟩

/-- The edge resource constructed from `c14_distinct_platform`. -/
def c14_distinct_resource : edge_resource_t :=
  { count := 2, state := [0, 0], qubits2edge := [((0, 1), 0), ((1, 0), 1)], edge2edges := [] }

/-- Two qubits declared next to a resource kind that is not modelled. -/
def c16_platform : quantum_platform :=
  ⟨[("detuned_qubits", ⟨2, []⟩), ("qubits", ⟨2, []⟩)], []⟩

/-! ## Free store and copies of a manager

`resource_manager_t` holds `std::vector<resource_t*> resource_ptrs`: pointers to
objects created by `new`.  The structure `resource_manager_t` above is what the
pointers of a manager refer to (`resource_manager_t.view`); the definitions here
follow the pointers. -/

/-- The free store: the object at each address, `none` where there is no live
object, and `next`, the first address that `new` has not handed out yet. -/
structure store where
  cells : Nat → Option resource_t
  next : Nat

/-- Expression `new T(obj)`: the object is placed at a fresh address, which is
returned. -/
def store.new (h : store) (obj : resource_t) : store × Nat :=
  (⟨fun p => if p = h.next then some obj else h.cells p, h.next + 1⟩, h.next)

/-- Statement `delete rptr`. -/
def store.delete (h : store) (rptr : Nat) : store :=
  ⟨fun p => if p = rptr then none else h.cells p, h.next⟩

/-- The object built by `T(*this)` in `clone() const &`: the implicitly defined
copy constructor copies every member. -/
def resource_t.clone : resource_t → resource_t
  | .qubit r => .qubit ⟨r.count, r.state⟩
  | .qwg r => .qwg ⟨r.count, r.state, r.operations, r.qubit2qwg⟩
  | .meas r => .meas ⟨r.count, r.start_cycle, r.state, r.qubit2meas⟩
  | .edge r => .edge ⟨r.count, r.state, r.qubits2edge, r.edge2edges⟩

/-- Loop `for (auto orgrptr : org.resource_ptrs)
resource_ptrs.push_back(orgrptr->clone())` of the copy constructor and of the
copy-assignment operator.  A pointer to no live object is skipped (calling
through it is undefined in the source). -/
def resource_manager_t.clone_loop : store → List Nat → List Nat → store × List Nat
  | h, [], resource_ptrs => (h, resource_ptrs)
  | h, orgrptr :: rest, resource_ptrs =>
    match h.cells orgrptr with
    | some obj =>
      resource_manager_t.clone_loop (h.new obj.clone).1 rest
        (resource_ptrs ++ [(h.new obj.clone).2])
    | none => resource_manager_t.clone_loop h rest resource_ptrs

/-- Copy constructor `resource_manager_t(const resource_manager_t& org)`: the
store after it and the `resource_ptrs` of the new manager. -/
def resource_manager_t.copy_construct (h : store) (org : List Nat) : store × List Nat :=
  resource_manager_t.clone_loop h org []

/-- Copy assignment `operator=(const resource_manager_t& rhs)` on a manager whose
pointers are `resource_ptrs`: the store after it and the new `resource_ptrs`. -/
def resource_manager_t.copy_assign (h : store) (resource_ptrs rhs : List Nat) :
    store × List Nat :=
  let cloned := resource_manager_t.clone_loop h rhs []
  (resource_ptrs.foldl store.delete cloned.1, cloned.2)

/-- The variants a manager with the pointers `resource_ptrs` refers to. -/
def resource_manager_t.view (h : store) (resource_ptrs : List Nat) : resource_manager_t :=
  ⟨resource_ptrs.filterMap h.cells⟩

/-- Call `rptr->reserve(...)`: the object at `rptr` is updated in place. -/
def store.reserve_at (op_start_cycle : Nat) (ins : gate)
    (operation_name operation_type instruction_type : String) (operation_duration : Nat)
    (h : store) (rptr : Nat) : store :=
  match h.cells rptr with
  | some obj =>
    ⟨fun p => if p = rptr then
        some (obj.reserve op_start_cycle ins operation_name operation_type instruction_type
          operation_duration)
      else h.cells p, h.next⟩
  | none => h

/-- Member `resource_manager_t::reserve` of the manager with the pointers
`resource_ptrs`, as a change of the store. -/
def resource_manager_t.reserve_ptrs (h : store) (resource_ptrs : List Nat) (x : call) : store :=
  resource_ptrs.foldl (store.reserve_at x.op_start_cycle x.ins x.operation_name
    x.operation_type x.instruction_type x.operation_duration) h

/-- A sequence of `reserve` calls on the manager with the pointers `resource_ptrs`. -/
def resource_manager_t.reserve_pass (h : store) (resource_ptrs : List Nat) (xs : List call) :
    store :=
  xs.foldl (fun h x => resource_manager_t.reserve_ptrs h resource_ptrs x) h

/-- A store with a qubit variant at address 0 and a drive-line variant at
address 1, owned by one manager, and a qubit variant at address 2 owned by
another manager. -/
def c12_store : store :=
  ⟨fun p =>
    if p = 0 then some (.qubit ⟨2, [0, 0]⟩)
    else if p = 1 then some (.qwg ⟨1, [0], [""], [(0, 0), (1, 0)]⟩)
    else if p = 2 then some (.qubit ⟨1, [7]⟩)
    else none, 3⟩

/-- An `x90` on qubit 0 at cycle 0 and a `y90` on qubit 1 at cycle 1. -/
def c12_pass : List call :=
  [⟨0, ⟨"x90", [0]⟩, "x90", "mw", "", 1⟩, ⟨1, ⟨"y90", [1]⟩, "y90", "mw", "", 1⟩]

/-! ## Subscripts with a range check

`std::vector::operator[]` makes no range check.  The definitions of this section
repeat `available` and `reserve` of the four variants with every subscript of a
state vector checked: the result is `none` as soon as a subscript is past the
end of its vector, and otherwise what the source computes. -/

/-- Read `v[i]` of a `std::vector<size_t>`, `none` when `i` is out of range. -/
def vec_read (v : List Nat) (i : Nat) : Option Nat :=
  if i < v.length then some (vec_get v i) else none

/-- Read `v[i]` of a `std::vector<std::string>`, `none` when `i` is out of range. -/
def vec_read_str (v : List String) (i : Nat) : Option String :=
  if i < v.length then some (vec_get_str v i) else none

/-- Write `v[i] = x`, `none` when `i` is out of range. -/
def vec_write {α : Type} (v : List α) (i : Nat) (x : α) : Option (List α) :=
  if i < v.length then some (vec_set v i x) else none

/-- Loop of `qubit_resource_t::available` with checked subscripts. -/
def qubit_resource_t.available_loop_checked (state : List Nat) (op_start_cycle : Nat) :
    List Nat → Option Bool
  | [] => some true
  | q :: qs =>
    match vec_read state q with
    | none => none
    | some busy =>
      if op_start_cycle < busy then some false
      else qubit_resource_t.available_loop_checked state op_start_cycle qs

def qubit_resource_t.available_checked (r : qubit_resource_t) (op_start_cycle : Nat)
    (ins : gate) (operation_name operation_type instruction_type : String)
    (operation_duration : Nat) : Option Bool :=
  qubit_resource_t.available_loop_checked r.state op_start_cycle ins.operands

/-- Loop of a `reserve` that writes the same value `x` at every index of a list,
with checked subscripts. -/
def vec_write_all (x : Nat) : List Nat → List Nat → Option (List Nat)
  | [], state => some state
  | q :: qs, state =>
    match vec_write state q x with
    | none => none
    | some state' => vec_write_all x qs state'

def qubit_resource_t.reserve_checked (r : qubit_resource_t) (op_start_cycle : Nat)
    (ins : gate) (operation_name operation_type instruction_type : String)
    (operation_duration : Nat) : Option qubit_resource_t :=
  match vec_write_all (size_add op_start_cycle operation_duration) ins.operands r.state with
  | none => none
  | some state => some { r with state := state }

/-- Loop of `qwg_resource_t::available` with checked subscripts. -/
def qwg_resource_t.available_loop_checked (r : qwg_resource_t) (op_start_cycle : Nat)
    (operation_name : String) : List Nat → Option Bool
  | [] => some true
  | q :: qs =>
    match vec_read r.state (map_at r.qubit2qwg q 0) with
    | none => none
    | some busy =>
      if op_start_cycle < busy then
        match vec_read_str r.operations (map_at r.qubit2qwg q 0) with
        | none => none
        | some operation =>
          if operation ≠ operation_name then some false
          else qwg_resource_t.available_loop_checked r op_start_cycle operation_name qs
      else qwg_resource_t.available_loop_checked r op_start_cycle operation_name qs

def qwg_resource_t.available_checked (r : qwg_resource_t) (op_start_cycle : Nat) (ins : gate)
    (operation_name operation_type instruction_type : String) (operation_duration : Nat) :
    Option Bool :=
  let is_mw := (operation_type == "mw")
  if is_mw then
    qwg_resource_t.available_loop_checked r op_start_cycle operation_name ins.operands
  else some true

/-- Body of the loop of `qwg_resource_t::reserve` with checked subscripts. -/
def qwg_resource_t.reserve_step_checked (op_start_cycle : Nat) (operation_name : String)
    (operation_duration : Nat) (r : qwg_resource_t) (q : Nat) : Option qwg_resource_t :=
  match vec_read r.state (map_at r.qubit2qwg q 0) with
  | none => none
  | some busy =>
    match (if busy < size_add op_start_cycle operation_duration
        then vec_write r.state (map_at r.qubit2qwg q 0)
          (size_add op_start_cycle operation_duration)
        else some r.state) with
    | none => none
    | some state =>
      match vec_write r.operations (map_at r.qubit2qwg q 0) operation_name with
      | none => none
      | some operations => some { r with state := state, operations := operations }

/-- Loop over the operands of a `reserve` whose body may fail. -/
def reserve_loop_checked {σ : Type} (step : σ → Nat → Option σ) : List Nat → σ → Option σ
  | [], r => some r
  | q :: qs, r =>
    match step r q with
    | none => none
    | some r' => reserve_loop_checked step qs r'

def qwg_resource_t.reserve_checked (r : qwg_resource_t) (op_start_cycle : Nat) (ins : gate)
    (operation_name operation_type instruction_type : String) (operation_duration : Nat) :
    Option qwg_resource_t :=
  let is_mw := (operation_type == "mw")
  if is_mw then
    reserve_loop_checked
      (qwg_resource_t.reserve_step_checked op_start_cycle operation_name operation_duration)
      ins.operands r
  else some r

/-- Loop of `meas_resource_t::available` with checked subscripts. -/
def meas_resource_t.available_loop_checked (r : meas_resource_t) (op_start_cycle : Nat) :
    List Nat → Option Bool
  | [] => some true
  | q :: qs =>
    match vec_read r.start_cycle (map_at r.qubit2meas q 0) with
    | none => none
    | some last_start =>
      if op_start_cycle ≠ last_start then
        match vec_read r.state (map_at r.qubit2meas q 0) with
        | none => none
        | some busy =>
          if op_start_cycle < busy then some false
          else meas_resource_t.available_loop_checked r op_start_cycle qs
      else meas_resource_t.available_loop_checked r op_start_cycle qs

def meas_resource_t.available_checked (r : meas_resource_t) (op_start_cycle : Nat)
    (ins : gate) (operation_name operation_type instruction_type : String)
    (operation_duration : Nat) : Option Bool :=
  let is_measure := (operation_type == "readout")
  if is_measure then meas_resource_t.available_loop_checked r op_start_cycle ins.operands
  else some true

/-- Body of the loop of `meas_resource_t::reserve` with checked subscripts. -/
def meas_resource_t.reserve_step_checked (op_start_cycle operation_duration : Nat)
    (r : meas_resource_t) (q : Nat) : Option meas_resource_t :=
  match vec_write r.start_cycle (map_at r.qubit2meas q 0) op_start_cycle with
  | none => none
  | some start_cycle =>
    match vec_write r.state (map_at r.qubit2meas q 0)
        (size_add op_start_cycle operation_duration) with
    | none => none
    | some state => some { r with start_cycle := start_cycle, state := state }

def meas_resource_t.reserve_checked (r : meas_resource_t) (op_start_cycle : Nat) (ins : gate)
    (operation_name operation_type instruction_type : String) (operation_duration : Nat) :
    Option meas_resource_t :=
  let is_measure := (operation_type == "readout")
  if is_measure then
    reserve_loop_checked (meas_resource_t.reserve_step_checked op_start_cycle operation_duration)
      ins.operands r
  else some r

/-- Loop of `edge_resource_t::available` with checked subscripts. -/
def edge_resource_t.available_loop_checked (state : List Nat) (op_start_cycle : Nat) :
    List Nat → Option Bool
  | [] => some true
  | e :: es =>
    match vec_read state e with
    | none => none
    | some busy =>
      if op_start_cycle < busy then some false
      else edge_resource_t.available_loop_checked state op_start_cycle es

def edge_resource_t.available_checked (r : edge_resource_t) (op_start_cycle : Nat) (ins : gate)
    (operation_name operation_type instruction_type : String) (operation_duration : Nat) :
    Option (Except String Bool) :=
  let is_flux := (operation_type == "flux")
  if is_flux then
    let q0 := ins.operands.getD 0 0
    let q1 := ins.operands.getD 1 0
    match map_find r.qubits2edge (q0, q1) with
    | some edge_no =>
      let edges2check := map_at r.edge2edges edge_no [] ++ [edge_no]
      match edge_resource_t.available_loop_checked r.state op_start_cycle edges2check with
      | none => none
      | some b => some (.ok b)
    | none =>
      some (.error ("[x] Error : Use of illegal edge" ++ toString q0 ++ "->" ++ toString q1
        ++ "in operation:" ++ ins.name ++ " !"))
  else some (.ok true)

def edge_resource_t.reserve_checked (r : edge_resource_t) (op_start_cycle : Nat) (ins : gate)
    (operation_name operation_type instruction_type : String) (operation_duration : Nat) :
    Option edge_resource_t :=
  let is_flux := (operation_type == "flux")
  if is_flux then
    let q0 := ins.operands.getD 0 0
    let q1 := ins.operands.getD 1 0
    let edge_no := map_at r.qubits2edge (q0, q1) 0
    match vec_write r.state edge_no (size_add op_start_cycle operation_duration) with
    | none => none
    | some state =>
      match vec_write_all (size_add op_start_cycle operation_duration)
          (map_at r.edge2edges edge_no []) state with
      | none => none
      | some state =>
        some { r with
          state := state
          qubits2edge := map_touch r.qubits2edge (q0, q1) 0 }
  else some r

/-- Every index the drive-line resource can use is in range: both state vectors
have `count` entries and the lines of the connectivity are below `count`. -/
def qwg_resource_t.wf (r : qwg_resource_t) : Prop :=
  r.state.length = r.count ∧ r.operations.length = r.count ∧
    ∀ p ∈ r.qubit2qwg, p.2 < r.count

/-- Every index the measurement resource can use is in range: both state vectors
have `count` entries and the units of the connectivity are below `count`. -/
def meas_resource_t.wf (r : meas_resource_t) : Prop :=
  r.state.length = r.count ∧ r.start_cycle.length = r.count ∧
    ∀ p ∈ r.qubit2meas, p.2 < r.count

/-- No drive line, and no qubit connected to one. -/
def c22_platform : quantum_platform := ⟨[("qubits", ⟨1, []⟩), ("qwgs", ⟨0, []⟩)], []⟩

/-! # Auxiliary facts -/

/-! ## Auxiliary facts about vectors and maps -/

theorem size_add_eq {a b : Nat} (h : a + b < SIZE_MOD) : size_add a b = a + b :=
  Nat.mod_eq_of_lt h

theorem vec_get_set (v : List Nat) (i j x : Nat) :
    vec_get (vec_set v i x) j = if i = j ∧ i < v.length then x else vec_get v j := by
  unfold vec_get vec_set
  rw [List.getD_eq_getElem?_getD, List.getD_eq_getElem?_getD, List.getElem?_set]
  by_cases hij : i = j
  · subst hij
    by_cases hi : i < v.length
    · simp [hi]
    · have : v[i]? = none := List.getElem?_eq_none (Nat.le_of_not_lt hi)
      simp [hi, this]
  · simp [hij]

theorem vec_set_length {α : Type} (v : List α) (i : Nat) (x : α) :
    (vec_set v i x).length = v.length := by
  simp [vec_set]

theorem vec_get_replicate (n i : Nat) : vec_get (List.replicate n 0) i = 0 := by
  unfold vec_get
  rw [List.getD_eq_getElem?_getD, List.getElem?_replicate]
  by_cases h : i < n <;> simp [h]

/-- Writing the same value `x` at every index of `ops`. -/
theorem foldl_vec_set_length (ops : List Nat) (x : Nat) :
    ∀ v : List Nat, (ops.foldl (fun s p => vec_set s p x) v).length = v.length := by
  induction ops with
  | nil => intro v; rfl
  | cons p ps ih => intro v; simp only [List.foldl_cons]; rw [ih, vec_set_length]

theorem vec_get_foldl_set (ops : List Nat) (x j : Nat) :
    ∀ v : List Nat, vec_get (ops.foldl (fun s p => vec_set s p x) v) j
      = if j ∈ ops ∧ j < v.length then x else vec_get v j := by
  induction ops with
  | nil => intro v; simp
  | cons p ps ih =>
    intro v
    simp only [List.foldl_cons]
    rw [ih, vec_set_length, vec_get_set]
    by_cases hj : j < v.length
    · by_cases hps : j ∈ ps
      · simp [hps, hj]
      · by_cases hp : p = j
        · subst hp; simp [hj]
        · have hp' : ¬ j = p := fun h => hp h.symm
          simp [hps, hp, hp']
    · have : ¬ (p = j ∧ p < v.length) := fun h => hj (h.1 ▸ h.2)
      simp [hj, this]

/-! ## qubit_resource_t: auxiliary facts -/

theorem qubit_available_loop_iff (state : List Nat) (c : Nat) (ops : List Nat) :
    qubit_resource_t.available_loop state c ops = true ↔ ∀ q ∈ ops, vec_get state q ≤ c := by
  induction ops with
  | nil => simp [qubit_resource_t.available_loop]
  | cons q qs ih =>
    unfold qubit_resource_t.available_loop
    by_cases h : c < vec_get state q
    · simp only [h, if_true]
      constructor
      · intro hf; cases hf
      · intro hall; exact absurd (hall q (List.mem_cons_self q qs)) (Nat.not_le_of_lt h)
    · simp only [h, if_false, ih, List.mem_cons, forall_eq_or_imp]
      constructor
      · intro hall; exact ⟨Nat.le_of_not_lt h, hall⟩
      · intro hall; exact hall.2

/-- In a pass accepted from state `r`, instructions sharing a qubit occupy disjoint
intervals and each of them starts when its qubits are free in `r`. -/
theorem qubit_pass_exclusive (xs : List call) :
    ∀ r : qubit_resource_t,
      (∀ x ∈ xs, ∀ q ∈ x.ins.operands, q < r.state.length) →
      (∀ x ∈ xs, x.finish < SIZE_MOD) →
      accepts qubit_resource_t.available_call qubit_resource_t.reserve_call r xs = true →
      xs.Pairwise (fun a b => (∃ q, q ∈ a.ins.operands ∧ q ∈ b.ins.operands) →
          Disjoint a.interval b.interval) ∧
        ∀ y ∈ xs, ∀ q ∈ y.ins.operands, vec_get r.state q ≤ y.op_start_cycle := by
  induction xs with
  | nil => intro r _ _ _; simp
  | cons x xs ih =>
    intro r hrange hfit hacc
    simp only [accepts, Bool.and_eq_true] at hacc
    obtain ⟨hav, hacc'⟩ := hacc
    have hfree : ∀ q ∈ x.ins.operands, vec_get r.state q ≤ x.op_start_cycle :=
      (qubit_available_loop_iff _ _ _).1 hav
    have hx : size_add x.op_start_cycle x.operation_duration = x.finish :=
      size_add_eq (hfit x (List.mem_cons_self x xs))
    have hget : ∀ q, vec_get (qubit_resource_t.reserve_call r x).state q
        = if q ∈ x.ins.operands ∧ q < r.state.length then x.finish
          else vec_get r.state q := by
      intro q
      simp only [qubit_resource_t.reserve_call, qubit_resource_t.reserve]
      rw [vec_get_foldl_set, hx]
    have hlen : (qubit_resource_t.reserve_call r x).state.length = r.state.length := by
      simp only [qubit_resource_t.reserve_call, qubit_resource_t.reserve]
      rw [foldl_vec_set_length]
    obtain ⟨hpw, hstart⟩ := ih (qubit_resource_t.reserve_call r x)
      (fun y hy q hq => hlen ▸ hrange y (List.mem_cons_of_mem x hy) q hq)
      (fun y hy => hfit y (List.mem_cons_of_mem x hy)) hacc'
    refine ⟨List.pairwise_cons.2 ⟨?_, hpw⟩, ?_⟩
    · rintro y hy ⟨q, hqx, hqy⟩
      have h1 := hstart y hy q hqy
      rw [hget q, if_pos ⟨hqx, hrange x (List.mem_cons_self x xs) q hqx⟩] at h1
      rw [call.interval, call.interval, Set.Ico_disjoint_Ico]
      exact le_trans (min_le_left _ _) (le_trans h1 (le_max_right _ _))
    · intro y hy q hq
      rcases List.mem_cons.1 hy with rfl | hy'
      · exact hfree q hq
      · have h1 := hstart y hy' q hq
        rw [hget q] at h1
        by_cases hqx : q ∈ x.ins.operands ∧ q < r.state.length
        · rw [if_pos hqx] at h1
          exact le_trans (hfree q hqx.1) (le_trans (Nat.le_add_right _ _) h1)
        · rw [if_neg hqx] at h1; exact h1

/-! ## qwg_resource_t: auxiliary facts -/

/-- Shape of the state after the loop of `meas_resource_t::reserve`. -/
theorem meas_reserve_fold (c d : Nat) (ops : List Nat) :
    ∀ r : meas_resource_t,
      (ops.foldl (meas_resource_t.reserve_step c d) r).qubit2meas = r.qubit2meas ∧
      (ops.foldl (meas_resource_t.reserve_step c d) r).count = r.count ∧
      (ops.foldl (meas_resource_t.reserve_step c d) r).state.length = r.state.length ∧
      (ops.foldl (meas_resource_t.reserve_step c d) r).start_cycle.length
        = r.start_cycle.length ∧
      (∀ u, vec_get (ops.foldl (meas_resource_t.reserve_step c d) r).state u
        = if (∃ q ∈ ops, map_at r.qubit2meas q 0 = u) ∧ u < r.state.length
          then size_add c d else vec_get r.state u) ∧
      (∀ u, vec_get (ops.foldl (meas_resource_t.reserve_step c d) r).start_cycle u
        = if (∃ q ∈ ops, map_at r.qubit2meas q 0 = u) ∧ u < r.start_cycle.length
          then c else vec_get r.start_cycle u) := by
  induction ops with
  | nil => intro r; simp
  | cons p ps ih =>
    intro r
    simp only [List.foldl_cons]
    obtain ⟨h1, h2, h3, h4, h5, h6⟩ := ih (meas_resource_t.reserve_step c d r p)
    have e1 : (meas_resource_t.reserve_step c d r p).qubit2meas = r.qubit2meas := rfl
    have e2 : (meas_resource_t.reserve_step c d r p).count = r.count := rfl
    have e3 : (meas_resource_t.reserve_step c d r p).state.length = r.state.length := by
      simp [meas_resource_t.reserve_step, vec_set_length]
    have e4 : (meas_resource_t.reserve_step c d r p).start_cycle.length
        = r.start_cycle.length := by
      simp [meas_resource_t.reserve_step, vec_set_length]
    have e5 : ∀ u, vec_get (meas_resource_t.reserve_step c d r p).state u
        = if map_at r.qubit2meas p 0 = u ∧ map_at r.qubit2meas p 0 < r.state.length
          then size_add c d else vec_get r.state u := by
      intro u; simp only [meas_resource_t.reserve_step, vec_get_set]
    have e6 : ∀ u, vec_get (meas_resource_t.reserve_step c d r p).start_cycle u
        = if map_at r.qubit2meas p 0 = u ∧ map_at r.qubit2meas p 0 < r.start_cycle.length
          then c else vec_get r.start_cycle u := by
      intro u; simp only [meas_resource_t.reserve_step, vec_get_set]
    refine ⟨h1.trans e1, h2.trans e2, h3.trans e3, h4.trans e4, ?_, ?_⟩
    · intro u
      rw [h5 u, e1, e3, e5]
      by_cases hlen : u < r.state.length <;>
        by_cases hps : ∃ q ∈ ps, map_at r.qubit2meas q 0 = u <;>
        by_cases hp : map_at r.qubit2meas p 0 = u <;>
        simp [hlen, hps, hp]
    · intro u
      rw [h6 u, e1, e4, e6]
      by_cases hlen : u < r.start_cycle.length <;>
        by_cases hps : ∃ q ∈ ps, map_at r.qubit2meas q 0 = u <;>
        by_cases hp : map_at r.qubit2meas p 0 = u <;>
        simp [hlen, hps, hp]

/-- The loop of `meas_resource_t::available` answers `true` exactly when every
operand's unit was last started in this very cycle or is free. -/
theorem meas_available_loop_iff (r : meas_resource_t) (c : Nat) (ops : List Nat) :
    meas_resource_t.available_loop r c ops = true ↔
      ∀ q ∈ ops, c = vec_get r.start_cycle (map_at r.qubit2meas q 0) ∨
        vec_get r.state (map_at r.qubit2meas q 0) ≤ c := by
  induction ops with
  | nil => simp [meas_resource_t.available_loop]
  | cons q qs ih =>
    unfold meas_resource_t.available_loop
    simp only [List.mem_cons, forall_eq_or_imp]
    by_cases hs : c = vec_get r.start_cycle (map_at r.qubit2meas q 0)
    · simp only [ne_eq, hs, not_true_eq_false, if_false]
      rw [← hs, ih]
      constructor
      · intro hall; exact ⟨Or.inl trivial, hall⟩
      · intro hall; exact hall.2
    · by_cases h : c < vec_get r.state (map_at r.qubit2meas q 0)
      · simp only [ne_eq, hs, not_false_eq_true, if_true, h]
        constructor
        · intro hf; cases hf
        · rintro ⟨h1 | h1, _⟩
          · exact absurd h1 (fun h => h)
          · exact absurd h1 (Nat.not_le_of_lt h)
      · simp only [ne_eq, hs, not_false_eq_true, if_true, h, if_false, ih]
        constructor
        · intro hall; exact ⟨Or.inr (Nat.le_of_not_lt h), hall⟩
        · intro hall; exact hall.2

/-! ## edge_resource_t: auxiliary facts -/

theorem map_find_assign {κ β : Type} [DecidableEq κ] (m : List (κ × β)) (k k' : κ) (v : β) :
    map_find (map_assign m k v) k' = if k = k' then some v else map_find m k' := by
  induction m with
  | nil => simp [map_assign, map_find]
  | cons p m ih =>
    obtain ⟨a, b⟩ := p
    by_cases hak : a = k
    · subst hak
      by_cases hk : a = k' <;> simp [map_assign, map_find, hk]
    · by_cases hk : k = k'
      · subst hk
        simp [map_assign, map_find, hak, ih]
      · by_cases hak' : a = k'
        · subst hak'
          simp [map_assign, map_find, hak, hk]
        · simp [map_assign, map_find, hak, hak', hk, ih]

theorem map_find_mem {κ β : Type} [DecidableEq κ] (m : List (κ × β)) (k : κ) (v : β)
    (h : map_find m k = some v) : (k, v) ∈ m := by
  induction m with
  | nil => simp [map_find] at h
  | cons p m ih =>
    obtain ⟨a, b⟩ := p
    by_cases hak : a = k
    · subst hak
      simp only [map_find, if_true, Option.some.injEq] at h
      subst h
      exact List.mem_cons_self _ _
    · simp only [map_find, hak, if_false] at h
      exact List.mem_cons_of_mem _ (ih h)

theorem map_find_none_of_not_mem {κ β : Type} [DecidableEq κ] (m : List (κ × β)) (k : κ)
    (h : ∀ v, (k, v) ∉ m) : map_find m k = none := by
  cases hf : map_find m k with
  | none => rfl
  | some v => exact absurd (map_find_mem m k v hf) (h v)

theorem map_at_mem {κ β : Type} [DecidableEq κ] (m : List (κ × List β)) (k : κ) (x : β)
    (h : x ∈ map_at m k []) : ∃ p ∈ m, p.1 = k ∧ x ∈ p.2 := by
  unfold map_at at h
  cases hf : map_find m k with
  | none => simp [hf] at h
  | some v =>
    simp only [hf, Option.getD_some] at h
    exact ⟨(k, v), map_find_mem m k v hf, rfl, h⟩

theorem map_at_of_find {κ β : Type} [DecidableEq κ] (m : List (κ × β)) (k : κ) (v dflt : β)
    (h : map_find m k = some v) : map_at m k dflt = v := by
  simp [map_at, h]

theorem edge_available_loop_iff (state : List Nat) (c : Nat) (es : List Nat) :
    edge_resource_t.available_loop state c es = true ↔ ∀ e ∈ es, vec_get state e ≤ c := by
  induction es with
  | nil => simp [edge_resource_t.available_loop]
  | cons q qs ih =>
    unfold edge_resource_t.available_loop
    by_cases h : c < vec_get state q
    · simp only [h, if_true]
      constructor
      · intro hf; cases hf
      · intro hall; exact absurd (hall q (List.mem_cons_self q qs)) (Nat.not_le_of_lt h)
    · simp only [h, if_false, ih, List.mem_cons, forall_eq_or_imp]
      constructor
      · intro hall; exact ⟨Nat.le_of_not_lt h, hall⟩
      · intro hall; exact hall.2

/-- Answer of `edge_resource_t::available` for a flux instruction on a mapped pair. -/
theorem edge_available_mapped (r : edge_resource_t) (c d q0 q1 e : Nat)
    (rest : List Nat) (ins : gate) (n it : String)
    (hops : ins.operands = q0 :: q1 :: rest)
    (hedge : map_find r.qubits2edge (q0, q1) = some e) :
    r.available c ins n "flux" it d
      = .ok (edge_resource_t.available_loop r.state c (map_at r.edge2edges e [] ++ [e])) := by
  simp [edge_resource_t.available, hops, hedge]

/-- A pair that the topology does not list is absent from the ingested map. -/
theorem edge_ingest_topology_find_none (k : Nat × Nat)
    (edges : List (Nat × Nat × Nat)) :
    ∀ m m' : List ((Nat × Nat) × Nat),
      edge_resource_t.ingest_topology edges m = .ok m' → map_find m k = none →
      (∀ e, (k.1, k.2, e) ∉ edges) → map_find m' k = none := by
  induction edges with
  | nil =>
    intro m m' h hk _
    simp only [edge_resource_t.ingest_topology, Except.ok.injEq] at h
    rw [← h]; exact hk
  | cons t edges ih =>
    intro m m' h hk hnot
    obtain ⟨s, d, e⟩ := t
    unfold edge_resource_t.ingest_topology at h
    cases hf : map_find m (s, d) with
    | some v => simp [hf] at h
    | none =>
      simp only [hf] at h
      refine ih _ _ h ?_ (fun e' he' => hnot e' (List.mem_cons_of_mem _ he'))
      rw [map_find_assign]
      have hne : ¬ (s, d) = k := by
        intro hsd
        apply hnot e
        rw [← hsd]
        exact List.mem_cons_self _ _
      simp [hne, hk]

/-- The constructor pushes one variant per entry, named by the entry's key, and
every edge variant it pushes is the result of `edge_resource_t(platform)`. -/
theorem manager_create_loop_names (platform : quantum_platform)
    (entries : List (String × resource_json)) :
    ∀ acc res : List resource_t,
      resource_manager_t.create_loop platform entries acc = .ok res →
      res.map resource_t.name = acc.map resource_t.name ++ entries.map Prod.fst ∧
        ∀ r, resource_t.edge r ∈ res →
          resource_t.edge r ∈ acc ∨ edge_resource_t.create platform = .ok r := by
  induction entries with
  | nil =>
    intro acc res h
    simp only [resource_manager_t.create_loop, Except.ok.injEq] at h
    subst h
    exact ⟨by simp, fun r hr => Or.inl hr⟩
  | cons entry entries ih =>
    intro acc res h
    obtain ⟨n, cfg⟩ := entry
    unfold resource_manager_t.create_loop at h
    by_cases h1 : n = "qubits"
    · simp only [h1, if_true] at h
      obtain ⟨hn, he⟩ := ih _ _ h
      refine ⟨by simp [hn, h1, resource_t.name], fun r hr => ?_⟩
      rcases he r hr with h' | h'
      · simp only [List.mem_append, List.mem_singleton] at h'
        rcases h' with h' | h'
        · exact Or.inl h'
        · cases h'
      · exact Or.inr h'
    · by_cases h2 : n = "qwgs"
      · simp only [h1, h2, if_true, if_false] at h
        obtain ⟨hn, he⟩ := ih _ _ h
        refine ⟨by simp [hn, h2, resource_t.name], fun r hr => ?_⟩
        rcases he r hr with h' | h'
        · simp only [List.mem_append, List.mem_singleton] at h'
          rcases h' with h' | h'
          · exact Or.inl h'
          · cases h'
        · exact Or.inr h'
      · by_cases h3 : n = "meas_units"
        · simp only [h1, h2, h3, if_true, if_false] at h
          obtain ⟨hn, he⟩ := ih _ _ h
          refine ⟨by simp [hn, h3, resource_t.name], fun r hr => ?_⟩
          rcases he r hr with h' | h'
          · simp only [List.mem_append, List.mem_singleton] at h'
            rcases h' with h' | h'
            · exact Or.inl h'
            · cases h'
          · exact Or.inr h'
        · by_cases h4 : n = "edges"
          · simp only [h1, h2, h3, h4, if_true, if_false] at h
            cases hc : edge_resource_t.create platform with
            | error msg => simp [hc] at h
            | ok ares =>
              simp only [hc] at h
              obtain ⟨hn, he⟩ := ih _ _ h
              refine ⟨by simp [hn, h4, resource_t.name], fun r hr => ?_⟩
              rcases he r hr with h' | h'
              · simp only [List.mem_append, List.mem_singleton] at h'
                rcases h' with h' | h'
                · exact Or.inl h'
                · right
                  cases h'
                  rfl
              · exact Or.inr (hc ▸ h')
          · simp [h1, h2, h3, h4] at h

theorem resource_name_mem (rptr : resource_t) :
    rptr.name = "edges" ∨ rptr.name = "meas_units" ∨ rptr.name = "qubits" ∨
      rptr.name = "qwgs" := by
  cases rptr <;> simp [resource_t.name]

/-- In a list of variants whose names increase strictly, an edge variant can only
come first. -/
theorem resource_edge_first (ptrs : List resource_t)
    (hord : (ptrs.map resource_t.name).Pairwise (fun a b => a < b))
    (hown : ∃ r, resource_t.edge r ∈ ptrs) :
    ∃ r rest, ptrs = resource_t.edge r :: rest := by
  obtain ⟨r, hr⟩ := hown
  cases ptrs with
  | nil => cases hr
  | cons p rest =>
    rcases List.mem_cons.1 hr with h | h
    · exact ⟨r, rest, by rw [h]⟩
    · exfalso
      simp only [List.map_cons, List.pairwise_cons] at hord
      have hlt : p.name < "edges" :=
        hord.1 "edges" (List.mem_map.2 ⟨resource_t.edge r, h, rfl⟩)
      have e1 : ¬ ("edges" : String) < "edges" := lt_irrefl _
      have e2 : ¬ ("meas_units" : String) < "edges" := by
        rw [String.lt_iff_toList_lt]; decide
      have e3 : ¬ ("qubits" : String) < "edges" := by
        rw [String.lt_iff_toList_lt]; decide
      have e4 : ¬ ("qwgs" : String) < "edges" := by
        rw [String.lt_iff_toList_lt]; decide
      rcases resource_name_mem p with hp | hp | hp | hp <;> rw [hp] at hlt
      · exact e1 hlt
      · exact e2 hlt
      · exact e3 hlt
      · exact e4 hlt

/-- A `reserve` that follows an `available` which did not raise leaves the
pair-to-edge map as it was. -/
theorem edge_reserve_qubits2edge (r : edge_resource_t) (c d : Nat) (ins : gate)
    (n ot it : String) (b : Bool) (h : r.available c ins n ot it d = .ok b) :
    (r.reserve c ins n ot it d).qubits2edge = r.qubits2edge := by
  by_cases hot : ot = "flux"
  · subst hot
    unfold edge_resource_t.available at h
    unfold edge_resource_t.reserve
    simp only [beq_self_eq_true, if_true] at h ⊢
    cases hf : map_find r.qubits2edge (ins.operands.getD 0 0, ins.operands.getD 1 0) with
    | none => rw [hf] at h; cases h
    | some e => simp only [map_touch, hf]
  · simp [edge_resource_t.reserve, hot]

/-- Over a pass of accepted reservations a manager whose first variant is the
edge variant keeps it first, with the same pair-to-edge map. -/
theorem manager_pass_edge_first (xs : List call) :
    ∀ (m : resource_manager_t) (r : edge_resource_t) (rest : List resource_t),
      m.resource_ptrs = resource_t.edge r :: rest →
      accepts resource_manager_t.available_call resource_manager_t.reserve_call m xs = true →
      ∃ r' rest', (run resource_manager_t.reserve_call m xs).resource_ptrs
          = resource_t.edge r' :: rest' ∧ r'.qubits2edge = r.qubits2edge := by
  induction xs with
  | nil => intro m r rest hm _; exact ⟨r, rest, hm, rfl⟩
  | cons x xs ih =>
    intro m r rest hm hacc
    simp only [accepts, Bool.and_eq_true] at hacc
    obtain ⟨hav, hacc'⟩ := hacc
    have hok : ∃ b, r.available x.op_start_cycle x.ins x.operation_name x.operation_type
        x.instruction_type x.operation_duration = .ok b := by
      cases hr : r.available x.op_start_cycle x.ins x.operation_name x.operation_type
          x.instruction_type x.operation_duration with
      | ok b => exact ⟨b, rfl⟩
      | error msg =>
        simp [resource_manager_t.available_call, resource_manager_t.available, hm,
          resource_manager_t.available_loop, resource_t.available, hr] at hav
    obtain ⟨b, hb⟩ := hok
    have hm' : (resource_manager_t.reserve_call m x).resource_ptrs
        = resource_t.edge (r.reserve x.op_start_cycle x.ins x.operation_name x.operation_type
            x.instruction_type x.operation_duration)
          :: rest.map (fun rptr => rptr.reserve x.op_start_cycle x.ins x.operation_name
            x.operation_type x.instruction_type x.operation_duration) := by
      simp [resource_manager_t.reserve_call, resource_manager_t.reserve, hm,
        resource_t.reserve]
    obtain ⟨r', rest', h1, h2⟩ := ih _ _ _ hm' hacc'
    refine ⟨r', rest', ?_, h2.trans (edge_reserve_qubits2edge _ _ _ _ _ _ _ b hb)⟩
    simpa [run] using h1

/-! ## Busy-until cycles under an accepted reservation -/

/-- An accepted reservation lowers the busy-until cycle of no qubit. -/
theorem qubit_reserve_mono (r : qubit_resource_t) (x : call) (q : Nat)
    (hfit : x.finish < SIZE_MOD) (hav : r.available_call x = true) :
    vec_get r.state q ≤ vec_get (r.reserve_call x).state q := by
  have hfree := (qubit_available_loop_iff _ _ _).1 hav
  simp only [qubit_resource_t.reserve_call, qubit_resource_t.reserve]
  rw [vec_get_foldl_set, size_add_eq hfit]
  by_cases hq : q ∈ x.ins.operands ∧ q < r.state.length
  · rw [if_pos hq]
    exact le_trans (hfree q hq.1) (Nat.le_add_right _ _)
  · rw [if_neg hq]

/-- An accepted reservation lowers the busy-until cycle of no edge. -/
theorem edge_reserve_mono (r : edge_resource_t) (x : call) (e : Nat)
    (hfit : x.finish < SIZE_MOD) (hav : r.available_call x = true) :
    vec_get r.state e ≤ vec_get (r.reserve_call x).state e := by
  by_cases hot : x.operation_type = "flux"
  · cases hf : map_find r.qubits2edge (x.ins.operands.getD 0 0, x.ins.operands.getD 1 0) with
    | none =>
      simp only [edge_resource_t.available_call, edge_resource_t.available, hot,
        beq_self_eq_true, if_true] at hav
      rw [hf] at hav
      cases hav
    | some edge_no =>
      simp only [edge_resource_t.available_call, edge_resource_t.available, hot,
        beq_self_eq_true, if_true] at hav
      rw [hf] at hav
      have hfree := (edge_available_loop_iff _ _ _).1 hav
      simp only [edge_resource_t.reserve_call, edge_resource_t.reserve, hot, beq_self_eq_true,
        if_true]
      rw [map_at_of_find _ _ _ _ hf, vec_get_foldl_set, vec_set_length, vec_get_set,
        size_add_eq hfit]
      have hle : ∀ y ∈ map_at r.edge2edges edge_no [] ++ [edge_no],
          vec_get r.state y ≤ x.op_start_cycle + x.operation_duration :=
        fun y hy => le_trans (hfree y hy) (Nat.le_add_right _ _)
      by_cases h1 : e ∈ map_at r.edge2edges edge_no [] ∧ e < r.state.length
      · rw [if_pos h1]
        exact hle e (List.mem_append_left _ h1.1)
      · rw [if_neg h1]
        by_cases h2 : edge_no = e ∧ edge_no < r.state.length
        · rw [if_pos h2]
          exact hle e (by simp [h2.1])
        · rw [if_neg h2]
  · have hres : edge_resource_t.reserve_call r x = r := by
      simp [edge_resource_t.reserve_call, edge_resource_t.reserve, hot]
    rw [hres]

/-- An accepted reservation lowers the busy-until cycle of no measurement unit
whose last measurement started in another cycle. -/
theorem meas_reserve_mono (r : meas_resource_t) (x : call) (u : Nat)
    (hfit : x.finish < SIZE_MOD) (hav : r.available_call x = true)
    (hstart : x.op_start_cycle ≠ vec_get r.start_cycle u) :
    vec_get r.state u ≤ vec_get (r.reserve_call x).state u := by
  by_cases hot : x.operation_type = "readout"
  · have hres : meas_resource_t.reserve_call r x = x.ins.operands.foldl
        (meas_resource_t.reserve_step x.op_start_cycle x.operation_duration) r := by
      simp [meas_resource_t.reserve_call, meas_resource_t.reserve, hot]
    simp only [meas_resource_t.available_call, meas_resource_t.available, hot,
      beq_self_eq_true, if_true] at hav
    have hfree := (meas_available_loop_iff _ _ _).1 hav
    obtain ⟨_, _, _, _, hst, _⟩ := meas_reserve_fold x.op_start_cycle
      x.operation_duration x.ins.operands r
    rw [hres, hst, size_add_eq hfit]
    by_cases hu : (∃ q ∈ x.ins.operands, map_at r.qubit2meas q 0 = u) ∧ u < r.state.length
    · rw [if_pos hu]
      obtain ⟨⟨q, hq, hqu⟩, _⟩ := hu
      rcases hfree q hq with h | h
      · rw [hqu] at h; exact absurd h hstart
      · rw [hqu] at h; exact le_trans h (Nat.le_add_right _ _)
    · rw [if_neg hu]
  · have hres : meas_resource_t.reserve_call r x = r := by
      simp [meas_resource_t.reserve_call, meas_resource_t.reserve, hot]
    rw [hres]

/-- The loop of `resource_manager_t::available` over variants none of which
raises answers the conjunction of their answers. -/
theorem manager_available_loop_spec (c : Nat) (ins : gate) (n ot it : String) (d : Nat)
    (ptrs : List resource_t)
    (hno : ∀ rptr ∈ ptrs, ∃ b, rptr.available c ins n ot it d = .ok b) :
    ∃ b, resource_manager_t.available_loop c ins n ot it d ptrs = .ok b ∧
      (b = true ↔ ∀ rptr ∈ ptrs, rptr.available c ins n ot it d = .ok true) := by
  induction ptrs with
  | nil => exact ⟨true, rfl, by simp⟩
  | cons p ps ih =>
    obtain ⟨b, hb⟩ := hno p (List.mem_cons_self p ps)
    obtain ⟨b', hb', hiff⟩ := ih (fun r hr => hno r (List.mem_cons_of_mem p hr))
    cases b with
    | false =>
      refine ⟨false, by simp [resource_manager_t.available_loop, hb], ?_⟩
      simp [hb]
    | true =>
      refine ⟨b', by simp [resource_manager_t.available_loop, hb, hb'], ?_⟩
      simp [hb, hiff]

/-! ## Ingestion of the topology -/

/-- After a successful ingestion a pair maps to `e` exactly when it did before or
the topology lists it with the id `e`. -/
theorem edge_ingest_topology_find (edges : List (Nat × Nat × Nat)) :
    ∀ (m m' : List ((Nat × Nat) × Nat)),
      edge_resource_t.ingest_topology edges m = .ok m' →
      ∀ (k : Nat × Nat) (e : Nat),
        map_find m' k = some e ↔ (map_find m k = some e ∨ (k.1, k.2, e) ∈ edges) := by
  induction edges with
  | nil =>
    intro m m' h k e
    simp only [edge_resource_t.ingest_topology, Except.ok.injEq] at h
    subst h
    simp
  | cons t edges ih =>
    intro m m' h k e
    obtain ⟨s, d, e0⟩ := t
    unfold edge_resource_t.ingest_topology at h
    cases hf : map_find m (s, d) with
    | some v => simp [hf] at h
    | none =>
      simp only [hf] at h
      rw [ih _ _ h k e, map_find_assign]
      by_cases hk : (s, d) = k
      · subst hk
        simp only [if_true, Option.some.injEq, hf, List.mem_cons, Prod.mk.injEq, true_and,
          false_or]
        constructor
        · rintro (h1 | h1)
          · exact Or.inr (Or.inl h1.symm)
          · exact Or.inr (Or.inr h1)
        · rintro (h1 | h1 | h1)
          · cases h1
          · exact Or.inl h1.symm
          · exact Or.inr h1
      · have hk' : ¬ (k.1 = s ∧ k.2 = d) := by
          rintro ⟨h1, h2⟩
          apply hk
          rw [← h1, ← h2]
        simp only [hk, if_false, List.mem_cons, Prod.mk.injEq]
        constructor
        · rintro (h1 | h1)
          · exact Or.inl h1
          · exact Or.inr (Or.inr h1)
        · rintro (h1 | ⟨h1, h2, _⟩ | h1)
          · exact Or.inl h1
          · exact absurd ⟨h1, h2⟩ hk'
          · exact Or.inr h1

/-- The ingestion succeeds exactly when no listed pair is already mapped and no
pair is listed twice. -/
theorem edge_ingest_topology_ok_iff (edges : List (Nat × Nat × Nat)) :
    ∀ m : List ((Nat × Nat) × Nat),
      (∃ m', edge_resource_t.ingest_topology edges m = .ok m') ↔
        ((∀ t ∈ edges, map_find m (t.1, t.2.1) = none) ∧
          (edges.map (fun t => (t.1, t.2.1))).Nodup) := by
  induction edges with
  | nil => intro m; simp [edge_resource_t.ingest_topology]
  | cons t edges ih =>
    intro m
    obtain ⟨s, d, e0⟩ := t
    unfold edge_resource_t.ingest_topology
    cases hf : map_find m (s, d) with
    | some v => simp [hf]
    | none =>
      simp only [ih, map_find_assign, List.mem_cons, forall_eq_or_imp, hf, true_and,
        List.map_cons, List.nodup_cons, List.mem_map, not_exists, not_and]
      constructor
      · rintro ⟨h1, h2⟩
        refine ⟨fun t ht => ?_, fun t ht heq => ?_, h2⟩
        · have := h1 t ht
          by_cases hk : (s, d) = (t.1, t.2.1)
          · simp [hk] at this
          · simpa [hk] using this
        · have := h1 t ht
          simp [heq] at this
      · rintro ⟨h1, h2, h3⟩
        refine ⟨fun t ht => ?_, h3⟩
        have hk : ¬ (s, d) = (t.1, t.2.1) := fun heq => h2 t ht heq.symm
        simp only [hk, if_false]
        exact h1 t ht

/-- The constructor loop succeeds exactly when every key is one of the four
modelled kinds, provided `edge_resource_t(platform)` does not raise when called. -/
theorem manager_create_loop_ok_iff (platform : quantum_platform)
    (entries : List (String × resource_json)) :
    ∀ acc : List resource_t,
      ("edges" ∈ entries.map Prod.fst → ∃ r, edge_resource_t.create platform = .ok r) →
      ((∃ res, resource_manager_t.create_loop platform entries acc = .ok res) ↔
        ∀ n ∈ entries.map Prod.fst,
          n = "qubits" ∨ n = "qwgs" ∨ n = "meas_units" ∨ n = "edges") := by
  induction entries with
  | nil => intro acc _; simp [resource_manager_t.create_loop]
  | cons entry entries ih =>
    intro acc hedge
    obtain ⟨n, cfg⟩ := entry
    have hedge' : "edges" ∈ entries.map Prod.fst → ∃ r, edge_resource_t.create platform = .ok r :=
      fun h => hedge (by simp only [List.map_cons, List.mem_cons]; exact Or.inr h)
    unfold resource_manager_t.create_loop
    simp only [List.map_cons, List.mem_cons, forall_eq_or_imp]
    by_cases h1 : n = "qubits"
    · simp only [h1, if_true, true_or, true_and]
      exact ih _ hedge'
    · by_cases h2 : n = "qwgs"
      · simp only [h1, h2, if_true, if_false, true_or, or_true, true_and]
        exact ih _ hedge'
      · by_cases h3 : n = "meas_units"
        · simp only [h1, h2, h3, if_true, if_false, true_or, or_true, true_and]
          exact ih _ hedge'
        · by_cases h4 : n = "edges"
          · obtain ⟨r, hr⟩ := hedge (by simp [h4])
            simp only [h1, h2, h3, h4, if_true, if_false, or_true, true_and, hr]
            exact ih _ hedge'
          · simp [h1, h2, h3, h4]

/-- An exception raised by the constructor loop while `edge_resource_t(platform)`
does not raise is the "Un-modelled resource" exception for one of the keys. -/
theorem manager_create_loop_error (platform : quantum_platform)
    (entries : List (String × resource_json)) :
    ∀ (acc : List resource_t) (msg : String),
      ("edges" ∈ entries.map Prod.fst → ∃ r, edge_resource_t.create platform = .ok r) →
      resource_manager_t.create_loop platform entries acc = .error msg →
      ∃ n ∈ entries.map Prod.fst, msg = "[x] Error : Un-modelled resource: " ++ n ++ " !" := by
  induction entries with
  | nil => intro acc msg _ h; simp [resource_manager_t.create_loop] at h
  | cons entry entries ih =>
    intro acc msg hedge h
    obtain ⟨n, cfg⟩ := entry
    have hedge' : "edges" ∈ entries.map Prod.fst → ∃ r, edge_resource_t.create platform = .ok r :=
      fun h => hedge (by simp only [List.map_cons, List.mem_cons]; exact Or.inr h)
    have hstep : ∀ acc', resource_manager_t.create_loop platform entries acc' = .error msg →
        ∃ n' ∈ (n :: entries.map Prod.fst),
          msg = "[x] Error : Un-modelled resource: " ++ n' ++ " !" := by
      intro acc' h'
      obtain ⟨n', hn', hmsg⟩ := ih acc' msg hedge' h'
      exact ⟨n', List.mem_cons_of_mem _ hn', hmsg⟩
    unfold resource_manager_t.create_loop at h
    simp only [List.map_cons]
    by_cases h1 : n = "qubits"
    · simp only [h1, if_true] at h
      rw [h1]; rw [h1] at hstep; exact hstep _ h
    · by_cases h2 : n = "qwgs"
      · simp only [h1, h2, if_true, if_false] at h
        exact hstep _ h
      · by_cases h3 : n = "meas_units"
        · simp only [h1, h2, h3, if_true, if_false] at h
          exact hstep _ h
        · by_cases h4 : n = "edges"
          · obtain ⟨r, hr⟩ := hedge (by simp [h4])
            simp only [h1, h2, h3, h4, if_true, if_false, hr] at h
            exact hstep _ h
          · simp only [h1, h2, h3, h4, if_false, Except.error.injEq] at h
            exact ⟨n, List.mem_cons_self _ _, h.symm⟩

/-! ## Free store: auxiliary facts -/

theorem resource_clone_eq (obj : resource_t) : obj.clone = obj := by
  cases obj <;> rfl

theorem filterMap_cells_congr (f g : Nat → Option resource_t) (ptrs : List Nat)
    (h : ∀ p ∈ ptrs, f p = g p) : ptrs.filterMap f = ptrs.filterMap g := by
  induction ptrs with
  | nil => rfl
  | cons p ps ih =>
    have hp := h p (List.mem_cons_self p ps)
    have hps := ih (fun q hq => h q (List.mem_cons_of_mem p hq))
    simp only [List.filterMap_cons, hp, hps]

/-- The loop of clones leaves the objects below `next` alone and appends fresh
addresses that hold the objects of `org`, in the order of `org`. -/
theorem manager_clone_loop_spec (org : List Nat) :
    ∀ (h : store) (acc : List Nat),
      (∀ p ∈ org, p < h.next ∧ (h.cells p).isSome = true) →
      (∀ p, p < h.next → (resource_manager_t.clone_loop h org acc).1.cells p = h.cells p) ∧
      h.next ≤ (resource_manager_t.clone_loop h org acc).1.next ∧
      ∃ news, (resource_manager_t.clone_loop h org acc).2 = acc ++ news ∧
        (∀ p ∈ news, h.next ≤ p) ∧
        news.filterMap (resource_manager_t.clone_loop h org acc).1.cells
          = org.filterMap h.cells := by
  induction org with
  | nil =>
    intro h acc _
    exact ⟨fun p _ => rfl, le_refl _, [], by simp [resource_manager_t.clone_loop], by simp,
      by simp⟩
  | cons p ps ih =>
    intro h acc hlive
    obtain ⟨hp, hsome⟩ := hlive p (List.mem_cons_self p ps)
    obtain ⟨obj, hobj⟩ := Option.isSome_iff_exists.1 hsome
    have hnew : ∀ q, q < h.next → (h.new obj.clone).1.cells q = h.cells q := by
      intro q hq
      have : q ≠ h.next := Nat.ne_of_lt hq
      simp [store.new, this]
    have hlive' : ∀ q ∈ ps, q < (h.new obj.clone).1.next ∧
        ((h.new obj.clone).1.cells q).isSome = true := by
      intro q hq
      obtain ⟨h1, h2⟩ := hlive q (List.mem_cons_of_mem p hq)
      refine ⟨Nat.lt_succ_of_lt h1, ?_⟩
      rw [hnew q h1]; exact h2
    obtain ⟨ia, ib, news, ic, id', ie⟩ := ih (h.new obj.clone).1 (acc ++ [(h.new obj.clone).2])
      hlive'
    have hloop : resource_manager_t.clone_loop h (p :: ps) acc
        = resource_manager_t.clone_loop (h.new obj.clone).1 ps
            (acc ++ [(h.new obj.clone).2]) := by
      simp [resource_manager_t.clone_loop, hobj]
    rw [hloop]
    have hnext : (h.new obj.clone).1.next = h.next + 1 := rfl
    refine ⟨?_, ?_, h.next :: news, ?_, ?_, ?_⟩
    · intro q hq
      rw [ia q (by rw [hnext]; exact Nat.lt_succ_of_lt hq), hnew q hq]
    · rw [hnext] at ib; omega
    · rw [ic]; simp [store.new]
    · intro q hq
      rcases List.mem_cons.1 hq with rfl | hq'
      · exact le_refl _
      · have := id' q hq'
        rw [hnext] at this; omega
    · have hfresh : (resource_manager_t.clone_loop (h.new obj.clone).1 ps
          (acc ++ [(h.new obj.clone).2])).1.cells h.next = some obj := by
        rw [ia h.next (by rw [hnext]; exact Nat.lt_succ_self _)]
        simp [store.new, resource_clone_eq]
      have hrest : ps.filterMap (h.new obj.clone).1.cells = ps.filterMap h.cells :=
        filterMap_cells_congr _ _ _
          (fun q hq => hnew q (hlive q (List.mem_cons_of_mem p hq)).1)
      simp only [List.filterMap_cons, hfresh, hobj, ie, hrest]

theorem store_reserve_at_frame (c : Nat) (ins : gate) (n ot it : String) (d : Nat) (h : store)
    (rptr q : Nat) (hq : q ≠ rptr) :
    (store.reserve_at c ins n ot it d h rptr).cells q = h.cells q := by
  unfold store.reserve_at
  cases h.cells rptr with
  | none => rfl
  | some obj => simp [hq]

/-- A `reserve` of a manager changes no object outside its own pointers. -/
theorem manager_reserve_ptrs_frame (x : call) (ptrs : List Nat) (q : Nat) (hq : q ∉ ptrs) :
    ∀ h : store, (resource_manager_t.reserve_ptrs h ptrs x).cells q = h.cells q := by
  induction ptrs with
  | nil => intro h; rfl
  | cons p ps ih =>
    intro h
    simp only [resource_manager_t.reserve_ptrs, List.foldl_cons]
    have h1 := ih (fun hmem => hq (List.mem_cons_of_mem p hmem))
      (store.reserve_at x.op_start_cycle x.ins x.operation_name x.operation_type
        x.instruction_type x.operation_duration h p)
    simp only [resource_manager_t.reserve_ptrs] at h1
    rw [h1]
    exact store_reserve_at_frame _ _ _ _ _ _ h p q (fun heq => hq (heq ▸ List.mem_cons_self _ _))

/-- A sequence of `reserve` calls of a manager changes no object outside its own
pointers. -/
theorem manager_reserve_pass_frame (ptrs : List Nat) (q : Nat) (hq : q ∉ ptrs)
    (xs : List call) :
    ∀ h : store, (resource_manager_t.reserve_pass h ptrs xs).cells q = h.cells q := by
  induction xs with
  | nil => intro h; rfl
  | cons x xs ih =>
    intro h
    simp only [resource_manager_t.reserve_pass, List.foldl_cons]
    have h1 := ih (resource_manager_t.reserve_ptrs h ptrs x)
    simp only [resource_manager_t.reserve_pass] at h1
    rw [h1, manager_reserve_ptrs_frame x ptrs q hq]

/-- Deleting the objects of one manager changes no object outside its pointers. -/
theorem store_delete_frame (ptrs : List Nat) (q : Nat) (hq : q ∉ ptrs) :
    ∀ h : store, (ptrs.foldl store.delete h).cells q = h.cells q := by
  induction ptrs with
  | nil => intro h; rfl
  | cons p ps ih =>
    intro h
    simp only [List.foldl_cons]
    rw [ih (fun hmem => hq (List.mem_cons_of_mem p hmem))]
    have : q ≠ p := fun heq => hq (heq ▸ List.mem_cons_self _ _)
    simp [store.delete, this]

/-- With pairwise distinct pointers, the `reserve` through the pointers applies
the `reserve` of the variant to each object referred to, once. -/
theorem manager_reserve_ptrs_cells (x : call) (ptrs : List Nat) (hnodup : ptrs.Nodup) :
    ∀ h : store,
      (∀ q, (resource_manager_t.reserve_ptrs h ptrs x).cells q
        = if q ∈ ptrs then (h.cells q).map (fun obj => obj.reserve x.op_start_cycle x.ins
            x.operation_name x.operation_type x.instruction_type x.operation_duration)
          else h.cells q) := by
  induction ptrs with
  | nil => intro h q; simp [resource_manager_t.reserve_ptrs]
  | cons p ps ih =>
    intro h q
    obtain ⟨hp, hps⟩ := List.nodup_cons.1 hnodup
    have h1 := ih hps (store.reserve_at x.op_start_cycle x.ins x.operation_name
      x.operation_type x.instruction_type x.operation_duration h p) q
    simp only [resource_manager_t.reserve_ptrs, List.foldl_cons] at h1 ⊢
    rw [h1]
    by_cases hqp : q = p
    · subst hqp
      simp only [hp, if_false, List.mem_cons, true_or, if_true]
      unfold store.reserve_at
      cases hc : h.cells q with
      | none => simp [hc]
      | some obj => simp
    · have hfr := store_reserve_at_frame x.op_start_cycle x.ins x.operation_name
        x.operation_type x.instruction_type x.operation_duration h p q hqp
      simp only [List.mem_cons, hqp, false_or, hfr]

/-- With pairwise distinct pointers, the variants referred to after the `reserve`
through the pointers are those that `resource_manager_t.reserve` computes from
the variants referred to before. -/
theorem manager_reserve_ptrs_view (x : call) (ptrs : List Nat) (hnodup : ptrs.Nodup)
    (h : store) :
    resource_manager_t.view (resource_manager_t.reserve_ptrs h ptrs x) ptrs
      = (resource_manager_t.view h ptrs).reserve_call x := by
  simp only [resource_manager_t.view, resource_manager_t.reserve_call,
    resource_manager_t.reserve]
  congr 1
  rw [List.map_filterMap]
  apply filterMap_cells_congr
  intro q hq
  rw [manager_reserve_ptrs_cells x ptrs hnodup h q, if_pos hq]

/-! ## Subscripts with a range check: auxiliary facts -/

theorem map_at_lt {κ : Type} [DecidableEq κ] (m : List (κ × Nat)) (k : κ) (n : Nat)
    (hvals : ∀ p ∈ m, p.2 < n) (hn : 1 ≤ n) : map_at m k 0 < n := by
  unfold map_at
  cases hf : map_find m k with
  | none => exact hn
  | some v => exact hvals _ (map_find_mem m k v hf)

theorem mem_map_assign {κ β : Type} [DecidableEq κ] (m : List (κ × β)) (k : κ) (v : β)
    (p : κ × β) (hp : p ∈ map_assign m k v) : p ∈ m ∨ p = (k, v) := by
  induction m with
  | nil =>
    simp only [map_assign, List.mem_singleton] at hp
    exact Or.inr hp
  | cons a m ih =>
    obtain ⟨a1, a2⟩ := a
    by_cases hak : a1 = k
    · simp only [map_assign, hak, if_true, List.mem_cons] at hp
      rcases hp with hp | hp
      · exact Or.inr hp
      · exact Or.inl (List.mem_cons_of_mem _ hp)
    · simp only [map_assign, hak, if_false, List.mem_cons] at hp
      rcases hp with hp | hp
      · exact Or.inl (hp ▸ List.mem_cons_self _ _)
      · rcases ih hp with h | h
        · exact Or.inl (List.mem_cons_of_mem _ h)
        · exact Or.inr h

theorem vec_read_eq (v : List Nat) (i : Nat) (h : i < v.length) :
    vec_read v i = some (vec_get v i) := by
  simp [vec_read, h]

theorem vec_read_str_eq (v : List String) (i : Nat) (h : i < v.length) :
    vec_read_str v i = some (vec_get_str v i) := by
  simp [vec_read_str, h]

theorem vec_write_eq {α : Type} (v : List α) (i : Nat) (x : α) (h : i < v.length) :
    vec_write v i x = some (vec_set v i x) := by
  simp [vec_write, h]

theorem vec_write_all_eq (x : Nat) (ops : List Nat) :
    ∀ state : List Nat, (∀ q ∈ ops, q < state.length) →
      vec_write_all x ops state = some (ops.foldl (fun s p => vec_set s p x) state) := by
  induction ops with
  | nil => intro state _; rfl
  | cons q qs ih =>
    intro state h
    simp only [vec_write_all, vec_write_eq _ _ _ (h q (List.mem_cons_self q qs)),
      List.foldl_cons]
    exact ih _ (fun p hp => by
      rw [vec_set_length]; exact h p (List.mem_cons_of_mem q hp))

theorem qubit_available_loop_checked_eq (state : List Nat) (c : Nat) (ops : List Nat)
    (h : ∀ q ∈ ops, q < state.length) :
    qubit_resource_t.available_loop_checked state c ops
      = some (qubit_resource_t.available_loop state c ops) := by
  induction ops with
  | nil => rfl
  | cons q qs ih =>
    simp only [qubit_resource_t.available_loop_checked, qubit_resource_t.available_loop,
      vec_read_eq _ _ (h q (List.mem_cons_self q qs))]
    by_cases hc : c < vec_get state q
    · simp [hc]
    · simp only [hc, if_false]
      exact ih (fun p hp => h p (List.mem_cons_of_mem q hp))

theorem edge_available_loop_checked_eq (state : List Nat) (c : Nat) (es : List Nat)
    (h : ∀ e ∈ es, e < state.length) :
    edge_resource_t.available_loop_checked state c es
      = some (edge_resource_t.available_loop state c es) := by
  induction es with
  | nil => rfl
  | cons q qs ih =>
    simp only [edge_resource_t.available_loop_checked, edge_resource_t.available_loop,
      vec_read_eq _ _ (h q (List.mem_cons_self q qs))]
    by_cases hc : c < vec_get state q
    · simp [hc]
    · simp only [hc, if_false]
      exact ih (fun p hp => h p (List.mem_cons_of_mem q hp))

theorem qwg_available_loop_checked_eq (r : qwg_resource_t) (c : Nat) (n : String)
    (ops : List Nat)
    (h : ∀ q ∈ ops, map_at r.qubit2qwg q 0 < r.state.length ∧
      map_at r.qubit2qwg q 0 < r.operations.length) :
    qwg_resource_t.available_loop_checked r c n ops
      = some (qwg_resource_t.available_loop r c n ops) := by
  induction ops with
  | nil => rfl
  | cons q qs ih =>
    obtain ⟨h1, h2⟩ := h q (List.mem_cons_self q qs)
    have ih' := ih (fun p hp => h p (List.mem_cons_of_mem q hp))
    simp only [qwg_resource_t.available_loop_checked, qwg_resource_t.available_loop,
      vec_read_eq _ _ h1, vec_read_str_eq _ _ h2]
    by_cases hc : c < vec_get r.state (map_at r.qubit2qwg q 0)
    · by_cases hn : vec_get_str r.operations (map_at r.qubit2qwg q 0) = n
      · simp only [hc, if_true, hn, ne_eq, not_true_eq_false, if_false]
        exact ih'
      · simp [hc, hn]
    · simp only [hc, if_false]
      exact ih'

theorem meas_available_loop_checked_eq (r : meas_resource_t) (c : Nat) (ops : List Nat)
    (h : ∀ q ∈ ops, map_at r.qubit2meas q 0 < r.state.length ∧
      map_at r.qubit2meas q 0 < r.start_cycle.length) :
    meas_resource_t.available_loop_checked r c ops
      = some (meas_resource_t.available_loop r c ops) := by
  induction ops with
  | nil => rfl
  | cons q qs ih =>
    obtain ⟨h1, h2⟩ := h q (List.mem_cons_self q qs)
    have ih' := ih (fun p hp => h p (List.mem_cons_of_mem q hp))
    simp only [meas_resource_t.available_loop_checked, meas_resource_t.available_loop,
      vec_read_eq _ _ h1, vec_read_eq _ _ h2]
    by_cases hs : c = vec_get r.start_cycle (map_at r.qubit2meas q 0)
    · simp only [hs, ne_eq, not_true_eq_false, if_false]
      rw [← hs]; exact ih'
    · by_cases hc : c < vec_get r.state (map_at r.qubit2meas q 0)
      · simp [hs, hc]
      · simp only [ne_eq, hs, not_false_eq_true, if_true, hc, if_false]
        exact ih'

/-- A checked loop over the operands agrees with the unchecked one when an
invariant of the state makes every step succeed. -/
theorem reserve_loop_checked_eq {σ : Type} (stepc : σ → Nat → Option σ) (step : σ → Nat → σ)
    (inv : σ → Prop) (ops : List Nat)
    (hstep : ∀ r, inv r → ∀ q ∈ ops, stepc r q = some (step r q) ∧ inv (step r q)) :
    ∀ r, inv r → reserve_loop_checked stepc ops r = some (ops.foldl step r) ∧
      inv (ops.foldl step r) := by
  induction ops with
  | nil => intro r hr; exact ⟨rfl, hr⟩
  | cons q qs ih =>
    intro r hr
    obtain ⟨h1, h2⟩ := hstep r hr q (List.mem_cons_self q qs)
    simp only [reserve_loop_checked, h1, List.foldl_cons]
    exact ih (fun r' hr' p hp => hstep r' hr' p (List.mem_cons_of_mem q hp)) _ h2

theorem qwg_reserve_step_checked_eq (c : Nat) (n : String) (d : Nat) (r : qwg_resource_t)
    (q : Nat) (h1 : map_at r.qubit2qwg q 0 < r.state.length)
    (h2 : map_at r.qubit2qwg q 0 < r.operations.length) :
    qwg_resource_t.reserve_step_checked c n d r q
      = some (qwg_resource_t.reserve_step c n d r q) := by
  unfold qwg_resource_t.reserve_step_checked qwg_resource_t.reserve_step
  simp only [vec_read_eq _ _ h1, vec_write_eq _ _ _ h1, vec_write_eq _ _ _ h2]
  by_cases hlt : vec_get r.state (map_at r.qubit2qwg q 0) < size_add c d <;> simp [hlt]

theorem meas_reserve_step_checked_eq (c d : Nat) (r : meas_resource_t) (q : Nat)
    (h1 : map_at r.qubit2meas q 0 < r.state.length)
    (h2 : map_at r.qubit2meas q 0 < r.start_cycle.length) :
    meas_resource_t.reserve_step_checked c d r q
      = some (meas_resource_t.reserve_step c d r q) := by
  unfold meas_resource_t.reserve_step_checked meas_resource_t.reserve_step
  simp only [vec_write_eq _ _ _ h1, vec_write_eq _ _ _ h2]

/-- With all indices in range and at least one line, `available` and `reserve`
of the drive-line resource make no subscript out of range, and `reserve` keeps
all indices in range. -/
theorem qwg_index_safe (r : qwg_resource_t) (c d : Nat) (ins : gate) (n ot it : String)
    (hwf : r.wf) (hcount : 1 ≤ r.count) :
    r.available_checked c ins n ot it d = some (r.available c ins n ot it d) ∧
    r.reserve_checked c ins n ot it d = some (r.reserve c ins n ot it d) ∧
    (r.reserve c ins n ot it d).wf ∧ (r.reserve c ins n ot it d).count = r.count := by
  obtain ⟨hs, ho, hv⟩ := hwf
  have hL : ∀ q, map_at r.qubit2qwg q 0 < r.count := fun q => map_at_lt _ q _ hv hcount
  by_cases hot : ot = "mw"
  · subst hot
    have hloop := reserve_loop_checked_eq (qwg_resource_t.reserve_step_checked c n d)
      (qwg_resource_t.reserve_step c n d)
      (fun r' => r'.qubit2qwg = r.qubit2qwg ∧ r'.state.length = r.count ∧
        r'.operations.length = r.count ∧ r'.count = r.count) ins.operands
      (by
        rintro r' ⟨g1, g2, g3, g4⟩ q _
        have hq : map_at r'.qubit2qwg q 0 < r.count := g1 ▸ hL q
        refine ⟨qwg_reserve_step_checked_eq c n d r' q (g2 ▸ hq) (g3 ▸ hq), g1, ?_, ?_, g4⟩
        · unfold qwg_resource_t.reserve_step
          by_cases hlt : vec_get r'.state (map_at r'.qubit2qwg q 0) < size_add c d
          · simp [hlt, vec_set_length, g2]
          · simp [hlt, g2]
        · simp [qwg_resource_t.reserve_step, vec_set_length, g3])
      r ⟨rfl, hs, ho, rfl⟩
    obtain ⟨e1, g1, g2, g3, g4⟩ := hloop
    refine ⟨?_, ?_, ?_, ?_⟩
    · simp only [qwg_resource_t.available_checked, qwg_resource_t.available,
        beq_self_eq_true, if_true]
      exact qwg_available_loop_checked_eq r c n ins.operands
        (fun q _ => ⟨hs ▸ hL q, ho ▸ hL q⟩)
    · simp only [qwg_resource_t.reserve_checked, qwg_resource_t.reserve, beq_self_eq_true,
        if_true]
      exact e1
    · simp only [qwg_resource_t.reserve, beq_self_eq_true, if_true]
      exact ⟨g2.trans g4.symm, g3.trans g4.symm, by rw [g1, g4]; exact hv⟩
    · simp only [qwg_resource_t.reserve, beq_self_eq_true, if_true]
      exact g4
  · simp [qwg_resource_t.available_checked, qwg_resource_t.available,
      qwg_resource_t.reserve_checked, qwg_resource_t.reserve, hot, qwg_resource_t.wf, hs, ho]
    exact fun a b hab => hv (a, b) hab

/-- With all indices in range and at least one unit, `available` and `reserve`
of the measurement resource make no subscript out of range, and `reserve` keeps
all indices in range. -/
theorem meas_index_safe (r : meas_resource_t) (c d : Nat) (ins : gate) (n ot it : String)
    (hwf : r.wf) (hcount : 1 ≤ r.count) :
    r.available_checked c ins n ot it d = some (r.available c ins n ot it d) ∧
    r.reserve_checked c ins n ot it d = some (r.reserve c ins n ot it d) ∧
    (r.reserve c ins n ot it d).wf ∧ (r.reserve c ins n ot it d).count = r.count := by
  obtain ⟨hs, ho, hv⟩ := hwf
  have hL : ∀ q, map_at r.qubit2meas q 0 < r.count := fun q => map_at_lt _ q _ hv hcount
  by_cases hot : ot = "readout"
  · subst hot
    have hloop := reserve_loop_checked_eq (meas_resource_t.reserve_step_checked c d)
      (meas_resource_t.reserve_step c d)
      (fun r' => r'.qubit2meas = r.qubit2meas ∧ r'.state.length = r.count ∧
        r'.start_cycle.length = r.count ∧ r'.count = r.count) ins.operands
      (by
        rintro r' ⟨g1, g2, g3, g4⟩ q _
        have hq : map_at r'.qubit2meas q 0 < r.count := g1 ▸ hL q
        refine ⟨meas_reserve_step_checked_eq c d r' q (g2 ▸ hq) (g3 ▸ hq), g1, ?_, ?_, g4⟩
        · simp [meas_resource_t.reserve_step, vec_set_length, g2]
        · simp [meas_resource_t.reserve_step, vec_set_length, g3])
      r ⟨rfl, hs, ho, rfl⟩
    obtain ⟨e1, g1, g2, g3, g4⟩ := hloop
    refine ⟨?_, ?_, ?_, ?_⟩
    · simp only [meas_resource_t.available_checked, meas_resource_t.available,
        beq_self_eq_true, if_true]
      exact meas_available_loop_checked_eq r c ins.operands
        (fun q _ => ⟨hs ▸ hL q, ho ▸ hL q⟩)
    · simp only [meas_resource_t.reserve_checked, meas_resource_t.reserve, beq_self_eq_true,
        if_true]
      exact e1
    · simp only [meas_resource_t.reserve, beq_self_eq_true, if_true]
      exact ⟨g2.trans g4.symm, g3.trans g4.symm, by rw [g1, g4]; exact hv⟩
    · simp only [meas_resource_t.reserve, beq_self_eq_true, if_true]
      exact g4
  · simp [meas_resource_t.available_checked, meas_resource_t.available,
      meas_resource_t.reserve_checked, meas_resource_t.reserve, hot, meas_resource_t.wf, hs, ho]
    exact fun a b hab => hv (a, b) hab

/-- With operands below the qubit count, `available` and `reserve` of the qubit
resource make no subscript out of range, and `reserve` keeps the length of the
state vector. -/
theorem qubit_index_safe (r : qubit_resource_t) (c d : Nat) (ins : gate) (n ot it : String)
    (hlen : r.state.length = r.count) (hops : ∀ q ∈ ins.operands, q < r.count) :
    r.available_checked c ins n ot it d = some (r.available c ins n ot it d) ∧
    r.reserve_checked c ins n ot it d = some (r.reserve c ins n ot it d) ∧
    (r.reserve c ins n ot it d).state.length = r.count ∧
    (r.reserve c ins n ot it d).count = r.count := by
  have hops' : ∀ q ∈ ins.operands, q < r.state.length := fun q hq => hlen ▸ hops q hq
  refine ⟨?_, ?_, ?_, rfl⟩
  · exact qubit_available_loop_checked_eq _ _ _ hops'
  · simp only [qubit_resource_t.reserve_checked, qubit_resource_t.reserve,
      vec_write_all_eq _ _ _ hops']
  · simp only [qubit_resource_t.reserve]
    rw [foldl_vec_set_length, hlen]

/-- With all indices in range and at least one edge, `available` and `reserve`
of the edge resource make no subscript out of range, and `reserve` keeps all
indices in range. -/
theorem edge_index_safe (r : edge_resource_t) (c d : Nat) (ins : gate) (n ot it : String)
    (hwf : r.wf) (hcount : 1 ≤ r.count) :
    r.available_checked c ins n ot it d = some (r.available c ins n ot it d) ∧
    r.reserve_checked c ins n ot it d = some (r.reserve c ins n ot it d) ∧
    (r.reserve c ins n ot it d).wf ∧ (r.reserve c ins n ot it d).count = r.count := by
  obtain ⟨hlen, hpairs, hstored⟩ := hwf
  have hlist : ∀ e, ∀ x ∈ map_at r.edge2edges e [], x < r.state.length := by
    intro e x hx
    obtain ⟨p, hp, _, hxp⟩ := map_at_mem _ _ _ hx
    rw [hlen]
    exact hstored p hp x hxp
  by_cases hot : ot = "flux"
  · subst hot
    have hno : map_at r.qubits2edge (ins.operands.getD 0 0, ins.operands.getD 1 0) 0
        < r.state.length := by
      rw [hlen]
      exact map_at_lt _ _ _ hpairs hcount
    refine ⟨?_, ?_, ?_, ?_⟩
    · simp only [edge_resource_t.available_checked, edge_resource_t.available,
        beq_self_eq_true, if_true]
      cases hf : map_find r.qubits2edge (ins.operands.getD 0 0, ins.operands.getD 1 0) with
      | none => rfl
      | some e =>
        have he : e < r.state.length := by
          rw [hlen]
          exact hpairs _ (map_find_mem _ _ _ hf)
        simp only []
        rw [edge_available_loop_checked_eq]
        intro x hx
        rcases List.mem_append.1 hx with hx | hx
        · exact hlist e x hx
        · rw [List.mem_singleton.1 hx]; exact he
    · simp only [edge_resource_t.reserve_checked, edge_resource_t.reserve, beq_self_eq_true,
        if_true, vec_write_eq _ _ _ hno]
      rw [vec_write_all_eq]
      intro x hx
      rw [vec_set_length]
      exact hlist _ x hx
    · simp only [edge_resource_t.reserve, beq_self_eq_true, if_true, edge_resource_t.wf]
      refine ⟨?_, ?_, hstored⟩
      · rw [foldl_vec_set_length, vec_set_length, hlen]
      · intro p hp
        unfold map_touch at hp
        cases hf : map_find r.qubits2edge (ins.operands.getD 0 0, ins.operands.getD 1 0) with
        | some e =>
          rw [hf] at hp
          exact hpairs p hp
        | none =>
          rw [hf] at hp
          rcases mem_map_assign _ _ _ _ hp with h | h
          · exact hpairs p h
          · rw [h]; exact hcount
    · simp [edge_resource_t.reserve]
  · refine ⟨?_, ?_, ?_, ?_⟩
    · simp [edge_resource_t.available_checked, edge_resource_t.available, hot]
    · simp [edge_resource_t.reserve_checked, edge_resource_t.reserve, hot]
    · simp only [edge_resource_t.reserve, beq_iff_eq, hot, if_false]
      exact ⟨hlen, hpairs, hstored⟩
    · simp [edge_resource_t.reserve, hot]

/-! # Properties -/

/-- C1, as stated, fails: on two qubits, the pass of a gate on qubit 0 over cycles
0 to 9, a gate on qubit 0 at cycle 10 with duration `2 ^ 64 - 10` and a gate on
qubit 0 at cycle 5 consists of accepted reservations only, because the second
`reserve` stores the wrapped sum 0 as busy-until cycle; the first and the third
gate share qubit 0 and both occupy cycle 5. -/
theorem qubit_mutual_exclusion_counterexample :
    accepts qubit_resource_t.available_call qubit_resource_t.reserve_call
        (qubit_resource_t.create c1_platform) c1_overflow_pass = true ∧
      (∀ x ∈ c1_overflow_pass, ∀ q ∈ x.ins.operands,
        q < (qubit_resource_t.create c1_platform).count) ∧
      (∀ x ∈ c1_overflow_pass, x.op_start_cycle < SIZE_MOD ∧ x.operation_duration < SIZE_MOD) ∧
      vec_get (run qubit_resource_t.reserve_call (qubit_resource_t.create c1_platform)
        (c1_overflow_pass.take 2)).state 0 = 0 ∧
      ¬ c1_overflow_pass.Pairwise (fun a b =>
        (∃ q, q ∈ a.ins.operands ∧ q ∈ b.ins.operands) →
          Disjoint a.interval b.interval) := by
  refine ⟨by decide, by decide, by decide, by decide, ?_⟩
  intro h
  have h1 := (List.pairwise_cons.1 h).1 ⟨5, ⟨"y", [0]⟩, "y", "mw", "", 1⟩
    (by simp [c1_overflow_pass])
  have h2 := h1 ⟨0, by simp, by simp⟩
  have h3 : (5 : Nat) ∈ (⟨0, ⟨"x", [0]⟩, "x", "mw", "", 10⟩ : call).interval := by
    simp [call.interval, call.finish]
  have h4 : (5 : Nat) ∈ (⟨5, ⟨"y", [0]⟩, "y", "mw", "", 1⟩ : call).interval := by
    simp [call.interval, call.finish]
  exact Set.disjoint_left.1 h2 h3 h4

/-- C1, amended. Qubit mutual exclusion without wrap-around: in a pass on a
freshly constructed `qubit_resource_t` in which every `reserve` follows an
`available` that answered `true` on the state just before it and every
`op_start_cycle + operation_duration` is representable in `size_t` (operands
below the qubit count), any two reserved instructions that share an operand
qubit occupy disjoint half-open intervals of cycles. -/
theorem qubit_mutual_exclusion (platform : quantum_platform) (xs : List call)
    (hrange : ∀ x ∈ xs, ∀ q ∈ x.ins.operands, q < (qubit_resource_t.create platform).count)
    (hfit : ∀ x ∈ xs, x.finish < SIZE_MOD)
    (hacc : accepts qubit_resource_t.available_call qubit_resource_t.reserve_call
      (qubit_resource_t.create platform) xs = true) :
    xs.Pairwise (fun a b => (∃ q, q ∈ a.ins.operands ∧ q ∈ b.ins.operands) →
      Disjoint a.interval b.interval) := by
  have hlen : (qubit_resource_t.create platform).state.length
      = (qubit_resource_t.create platform).count := by
    simp [qubit_resource_t.create]
  exact (qubit_pass_exclusive xs _ (fun x hx q hq => hlen ▸ hrange x hx q hq)
    hfit hacc).1

theorem qubit_mutual_exclusion_witness :
    c1_pass.Pairwise (fun a b => (∃ q, q ∈ a.ins.operands ∧ q ∈ b.ins.operands) →
      Disjoint a.interval b.interval) :=
  qubit_mutual_exclusion c1_platform c1_pass (by decide) (by decide) (by decide)

/-- C2. Monotonicity does not hold for the measurement units: on one unit
serving qubits 0 and 1, a 10-cycle measurement of qubit 0 at cycle 0 followed by a
1-cycle measurement of qubit 1 at cycle 0 is a pass of accepted reservations, and
the second `reserve` lowers the unit's busy-until cycle from 10 to 1. -/
theorem meas_busy_until_decreases :
    accepts meas_resource_t.available_call meas_resource_t.reserve_call
        (meas_resource_t.create c2_platform) [c2_long, c2_short] = true ∧
      vec_get (run meas_resource_t.reserve_call
        (meas_resource_t.create c2_platform) [c2_long]).state 0 = 10 ∧
      vec_get (run meas_resource_t.reserve_call
        (meas_resource_t.create c2_platform) [c2_long, c2_short]).state 0 = 1 := by
  decide

/-- C5. Measurement batching, same start: after `reserve(c, ins1)` of a readout
instruction that has an operand `q1` on unit `u` (a unit below the count),
`available(c, ins2)` answers `true` for every readout instruction `ins2` all of
whose operands are on unit `u`, whatever the two durations. -/
theorem meas_batching_same_start (r : meas_resource_t) (c d1 d2 q1 : Nat) (ins1 ins2 : gate)
    (n1 n2 it1 it2 : String)
    (hstart : r.start_cycle.length = r.count)
    (hq1 : q1 ∈ ins1.operands)
    (hrange : ∀ q ∈ ins1.operands, map_at r.qubit2meas q 0 < r.count)
    (hunit : ∀ q ∈ ins2.operands, map_at r.qubit2meas q 0 = map_at r.qubit2meas q1 0) :
    (r.reserve c ins1 n1 "readout" it1 d1).available c ins2 n2 "readout" it2 d2 = true := by
  obtain ⟨hmap, _, _, _, _, hsc⟩ := meas_reserve_fold c d1 ins1.operands r
  have hres : r.reserve c ins1 n1 "readout" it1 d1
      = ins1.operands.foldl (meas_resource_t.reserve_step c d1) r := by
    simp [meas_resource_t.reserve]
  simp only [meas_resource_t.available, beq_self_eq_true, if_true]
  rw [meas_available_loop_iff]
  intro q hq
  left
  rw [hres, hmap, hunit q hq, hsc, if_pos ⟨⟨q1, hq1, rfl⟩, hstart ▸ hrange q1 hq1⟩]

theorem meas_batching_same_start_witness :
    ((meas_resource_t.create c5_platform).reserve 7 ⟨"measure", [0, 2]⟩ "measure" "readout" "" 30
      ).available 7 ⟨"measure", [1, 0]⟩ "measure" "readout" "" 2 = true :=
  meas_batching_same_start (meas_resource_t.create c5_platform) 7 30 2 0 ⟨"measure", [0, 2]⟩
    ⟨"measure", [1, 0]⟩ "measure" "measure" "" "" (by decide) (by decide) (by decide)
    (by decide)

/-- C6. Measurement exclusion does not hold over a whole pass: on one unit
serving qubits 0 and 1, a 10-cycle measurement of qubit 0 at cycle 0, a 1-cycle
measurement of qubit 1 at cycle 0 and a 1-cycle measurement of qubit 0 at cycle 5
are all accepted in this order, although the first and the third start in
different cycles and both occupy cycle 5. -/
theorem meas_exclusion_violated :
    accepts meas_resource_t.available_call meas_resource_t.reserve_call
        (meas_resource_t.create c2_platform) [c2_long, c2_short, c6_late] = true ∧
      c2_long.op_start_cycle ≠ c6_late.op_start_cycle ∧
      map_at (meas_resource_t.create c2_platform).qubit2meas 0 0 = 0 ∧
      5 ∈ c2_long.interval ∧ 5 ∈ c6_late.interval := by
  refine ⟨by decide, by decide, by decide, ?_, ?_⟩ <;>
    simp [call.interval, call.finish, c2_long, c6_late]

/-- C9. Illegal edge on the edge variant: `edge_resource_t::available` raises
exactly when the operation type is `"flux"` and the ordered pair of the first two
operands is absent from the pair-to-edge map, in which case it does not answer
`false`; for every other operation type it answers `true`, whatever the map. -/
theorem edge_illegal_edge (r : edge_resource_t) (c d : Nat) (ins : gate) (n ot it : String) :
    (∀ q0 q1 rest, ins.operands = q0 :: q1 :: rest →
      ((∃ msg, r.available c ins n ot it d = .error msg) ↔
        (ot = "flux" ∧ map_find r.qubits2edge (q0, q1) = none)) ∧
      (ot = "flux" → map_find r.qubits2edge (q0, q1) = none →
        r.available c ins n ot it d ≠ .ok false)) ∧
    (ot ≠ "flux" → r.available c ins n ot it d = .ok true) := by
  constructor
  · intro q0 q1 rest hops
    by_cases hot : ot = "flux"
    · subst hot
      cases hf : map_find r.qubits2edge (q0, q1) with
      | none => simp [edge_resource_t.available, hops, hf]
      | some e => simp [edge_resource_t.available, hops, hf]
    · simp [edge_resource_t.available, hot]
  · intro hot
    simp [edge_resource_t.available, hot]

theorem edge_illegal_edge_witness :
    ∃ msg, c8_resource.available 0 ⟨"cz", [1, 0]⟩ "cz" "flux" "" 1 = .error msg :=
  ((edge_illegal_edge c8_resource 0 1 ⟨"cz", [1, 0]⟩ "cz" "flux" "").1 1 0 [] rfl).1.2
    ⟨rfl, by decide⟩

/-- C10. Illegal edge through the manager: for a resource manager constructed from
a platform whose `resources` object is iterated in key order and that owns an
edge variant, after any pass of accepted reservations, `available(c, ins)` for a
flux instruction whose operand pair is not in the topology edge list raises the
"illegal edge" exception, whatever the other variants would answer. -/
theorem manager_illegal_edge (platform : quantum_platform) (m0 : resource_manager_t)
    (xs : List call) (c d q0 q1 : Nat) (rest : List Nat) (ins : gate) (n it : String)
    (hjson : platform.json_ordered)
    (hcreate : resource_manager_t.create platform = .ok m0)
    (hown : ∃ r, resource_t.edge r ∈ m0.resource_ptrs)
    (hacc : accepts resource_manager_t.available_call resource_manager_t.reserve_call m0 xs
      = true)
    (hops : ins.operands = q0 :: q1 :: rest)
    (hundeclared : ∀ e, (q0, q1, e) ∉ platform.topology_edges) :
    (run resource_manager_t.reserve_call m0 xs).available c ins n "flux" it d
      = .error ("[x] Error : Use of illegal edge" ++ toString q0 ++ "->" ++ toString q1
        ++ "in operation:" ++ ins.name ++ " !") := by
  -- the variants pushed by the constructor
  have hloop : resource_manager_t.create_loop platform platform.resources [] = .ok m0.resource_ptrs := by
    unfold resource_manager_t.create at hcreate
    cases hl : resource_manager_t.create_loop platform platform.resources [] with
    | error msg => simp [hl] at hcreate
    | ok ptrs =>
      simp only [hl, Except.ok.injEq] at hcreate
      rw [← hcreate]
  obtain ⟨hnames, hedges⟩ := manager_create_loop_names platform _ _ _ hloop
  simp only [List.map_nil, List.nil_append] at hnames
  have hord : (m0.resource_ptrs.map resource_t.name).Pairwise (fun a b => a < b) := by
    rw [hnames]
    exact List.pairwise_map.2 hjson
  obtain ⟨r0, rest0, hm0⟩ := resource_edge_first _ hord hown
  -- the pair is absent from the constructed map, and stays absent
  have hr0 : edge_resource_t.create platform = .ok r0 := by
    rcases hedges r0 (by rw [hm0]; exact List.mem_cons_self _ _) with h | h
    · cases h
    · exact h
  have hnone0 : map_find r0.qubits2edge (q0, q1) = none := by
    unfold edge_resource_t.create at hr0
    cases hin : edge_resource_t.ingest_topology platform.topology_edges [] with
    | error msg => simp [hin] at hr0
    | ok m =>
      simp only [hin, Except.ok.injEq] at hr0
      rw [← hr0]
      exact edge_ingest_topology_find_none (q0, q1) _ _ _ hin rfl hundeclared
  obtain ⟨r', rest', hrun, hsame⟩ := manager_pass_edge_first xs m0 r0 rest0 hm0 hacc
  simp [resource_manager_t.available, hrun, resource_manager_t.available_loop,
    resource_t.available, edge_resource_t.available, hops, hsame, hnone0]

theorem manager_illegal_edge_witness :
    (run resource_manager_t.reserve_call c10_manager c10_pass).available 0
        ⟨"cz", [1, 0]⟩ "cz" "flux" "" 1
      = .error ("[x] Error : Use of illegal edge" ++ toString 1 ++ "->" ++ toString 0
        ++ "in operation:" ++ "cz" ++ " !") :=
  manager_illegal_edge c10_platform c10_manager c10_pass 0 1 1 0 [] ⟨"cz", [1, 0]⟩ "cz" ""
    (by
      simp only [quantum_platform.json_ordered, c10_platform, List.pairwise_cons,
        List.mem_singleton, forall_eq, List.not_mem_nil, false_implies, implies_true,
        List.Pairwise.nil, and_true]
      rw [String.lt_iff_toList_lt]; decide)
    rfl ⟨_, List.mem_cons_self _ _⟩ (by decide) rfl (fun e => by simp [c10_platform])

/-- C11. Manager availability is the conjunction: on a query on which no owned
variant raises, `resource_manager_t::available` returns, and it returns `true`
exactly when the `available` of every owned variant returns `true` for the same
arguments; a manager owning no variants answers `true`. -/
theorem manager_available_conjunction (m : resource_manager_t) (c : Nat) (ins : gate)
    (n ot it : String) (d : Nat)
    (hno : ∀ rptr ∈ m.resource_ptrs, ∃ b, rptr.available c ins n ot it d = .ok b) :
    (∃ b, m.available c ins n ot it d = .ok b ∧
      (b = true ↔ ∀ rptr ∈ m.resource_ptrs, rptr.available c ins n ot it d = .ok true)) ∧
    resource_manager_t.available ⟨[]⟩ c ins n ot it d = .ok true :=
  ⟨manager_available_loop_spec c ins n ot it d m.resource_ptrs hno, rfl⟩

theorem manager_available_conjunction_witness :
    (∃ b, c13_manager.available 0 ⟨"cz", [0, 1]⟩ "cz" "flux" "" 1 = .ok b ∧
      (b = true ↔ ∀ rptr ∈ c13_manager.resource_ptrs,
        rptr.available 0 ⟨"cz", [0, 1]⟩ "cz" "flux" "" 1 = .ok true)) ∧
    resource_manager_t.available ⟨[]⟩ 0 ⟨"cz", [0, 1]⟩ "cz" "flux" "" 1 = .ok true :=
  manager_available_conjunction c13_manager 0 ⟨"cz", [0, 1]⟩ "cz" "flux" "" 1
    (by
      intro rptr hr
      simp only [c13_manager, List.mem_cons, List.mem_singleton, List.not_mem_nil, or_false]
        at hr
      rcases hr with rfl | rfl | rfl
      · exact ⟨true, rfl⟩
      · exact ⟨true, rfl⟩
      · exact ⟨true, rfl⟩)

/-- C12. Clone independence: let `m` be the pointers of a manager, all to live
objects, and let `m'` be the copy produced by the copy constructor, or by the
copy assignment to a manager `t` that owns none of the objects of `m`.  Right
after the copy `m'` refers to the same variants as `m`, in the same order, so
that the two `available` agree on every query; and after any sequence of
`reserve` calls on `m'` the `available` of `m` answers every query as before the
copy. -/
theorem manager_clone_independence (h : store) (m t : List Nat) (xs : List call) (c : Nat)
    (ins : gate) (n ot it : String) (d : Nat)
    (hm : ∀ p ∈ m, p < h.next ∧ (h.cells p).isSome = true)
    (ht : ∀ p ∈ t, p < h.next ∧ p ∉ m) :
    (resource_manager_t.view (resource_manager_t.copy_construct h m).1
        (resource_manager_t.copy_construct h m).2 = resource_manager_t.view h m ∧
      (resource_manager_t.view (resource_manager_t.copy_construct h m).1
          (resource_manager_t.copy_construct h m).2).available c ins n ot it d
        = (resource_manager_t.view h m).available c ins n ot it d ∧
      (resource_manager_t.view (resource_manager_t.reserve_pass
          (resource_manager_t.copy_construct h m).1
          (resource_manager_t.copy_construct h m).2 xs) m).available c ins n ot it d
        = (resource_manager_t.view h m).available c ins n ot it d) ∧
    (resource_manager_t.view (resource_manager_t.copy_assign h t m).1
        (resource_manager_t.copy_assign h t m).2 = resource_manager_t.view h m ∧
      (resource_manager_t.view (resource_manager_t.copy_assign h t m).1
          (resource_manager_t.copy_assign h t m).2).available c ins n ot it d
        = (resource_manager_t.view h m).available c ins n ot it d ∧
      (resource_manager_t.view (resource_manager_t.reserve_pass
          (resource_manager_t.copy_assign h t m).1
          (resource_manager_t.copy_assign h t m).2 xs) m).available c ins n ot it d
        = (resource_manager_t.view h m).available c ins n ot it d) := by
  obtain ⟨hold, _, news, hnews, hfresh, hobjs⟩ := manager_clone_loop_spec m h [] hm
  simp only [List.nil_append] at hnews
  rw [← hnews] at hobjs
  -- the pointers of the copy are fresh, those of `m` and `t` are not
  have hdisj : ∀ p ∈ m, p ∉ (resource_manager_t.clone_loop h m []).2 := by
    intro p hp hmem
    have h1 := hfresh p (hnews ▸ hmem)
    have h2 := (hm p hp).1
    omega
  have hdisj_t : ∀ p ∈ (resource_manager_t.clone_loop h m []).2, p ∉ t := by
    intro p hp hmem
    have h1 := hfresh p (hnews ▸ hp)
    have h2 := (ht p hmem).1
    omega
  constructor
  · have hview : resource_manager_t.view (resource_manager_t.copy_construct h m).1
        (resource_manager_t.copy_construct h m).2 = resource_manager_t.view h m := by
      simp only [resource_manager_t.view, resource_manager_t.copy_construct, hobjs]
    have hafter : resource_manager_t.view (resource_manager_t.reserve_pass
        (resource_manager_t.copy_construct h m).1
        (resource_manager_t.copy_construct h m).2 xs) m = resource_manager_t.view h m := by
      simp only [resource_manager_t.view, resource_manager_t.copy_construct]
      congr 1
      apply filterMap_cells_congr
      intro p hp
      rw [manager_reserve_pass_frame (resource_manager_t.clone_loop h m []).2 p (hdisj p hp) xs,
        hold p (hm p hp).1]
    exact ⟨hview, by rw [hview], by rw [hafter]⟩
  · have hcells : ∀ p, p ∉ t → (resource_manager_t.copy_assign h t m).1.cells p
        = (resource_manager_t.clone_loop h m []).1.cells p := by
      intro p hp
      simp only [resource_manager_t.copy_assign]
      exact store_delete_frame t p hp _
    have hview : resource_manager_t.view (resource_manager_t.copy_assign h t m).1
        (resource_manager_t.copy_assign h t m).2 = resource_manager_t.view h m := by
      simp only [resource_manager_t.view]
      congr 1
      rw [← hobjs]
      apply filterMap_cells_congr
      intro p hp
      exact hcells p (hdisj_t p hp)
    have hafter : resource_manager_t.view (resource_manager_t.reserve_pass
        (resource_manager_t.copy_assign h t m).1
        (resource_manager_t.copy_assign h t m).2 xs) m = resource_manager_t.view h m := by
      simp only [resource_manager_t.view]
      congr 1
      apply filterMap_cells_congr
      intro p hp
      rw [manager_reserve_pass_frame (resource_manager_t.copy_assign h t m).2 p (hdisj p hp) xs,
        hcells p (fun hmem => (ht p hmem).2 hp), hold p (hm p hp).1]
    exact ⟨hview, by rw [hview], by rw [hafter]⟩

theorem manager_clone_independence_witness :
    (resource_manager_t.view (resource_manager_t.reserve_pass
        (resource_manager_t.copy_construct c12_store [0, 1]).1
        (resource_manager_t.copy_construct c12_store [0, 1]).2 c12_pass) [0, 1]
      ).available 0 ⟨"y90", [1]⟩ "y90" "mw" "" 1
      = (resource_manager_t.view c12_store [0, 1]).available 0 ⟨"y90", [1]⟩ "y90" "mw"
        "" 1 ∧
    (resource_manager_t.view (resource_manager_t.reserve_pass
        (resource_manager_t.copy_assign c12_store [2] [0, 1]).1
        (resource_manager_t.copy_assign c12_store [2] [0, 1]).2 c12_pass) [0, 1]
      ).available 0 ⟨"y90", [1]⟩ "y90" "mw" "" 1
      = (resource_manager_t.view c12_store [0, 1]).available 0 ⟨"y90", [1]⟩ "y90" "mw"
        "" 1 :=
  ⟨(manager_clone_independence c12_store [0, 1] [2] c12_pass 0 ⟨"y90", [1]⟩ "y90" "mw"
      "" 1 (by decide) (by decide)).1.2.2,
    (manager_clone_independence c12_store [0, 1] [2] c12_pass 0 ⟨"y90", [1]⟩ "y90" "mw"
      "" 1 (by decide) (by decide)).2.2.2⟩

/-- C13. End-to-end example: on the manager built for 2 qubits, 1 drive line
serving qubits 0 and 1 and one edge for the pair (0, 1) without conflicting
edges, all durations 1: after `reserve(0, mw x90 on qubit 0)`, `available(0, mw
x90 on qubit 1)` is `true` and `available(0, mw y90 on qubit 1)` is `false`; after
additionally `reserve(2, flux cz on (0, 1))`, `available(2, flux cz on (0, 1))`
is `false` and `available(3, flux cz on (0, 1))` is `true`. -/
theorem manager_end_to_end :
    resource_manager_t.create c13_platform = .ok c13_manager ∧
    (c13_manager.reserve 0 ⟨"x90", [0]⟩ "x90" "mw" "" 1).available 0
      ⟨"x90", [1]⟩ "x90" "mw" "" 1 = .ok true ∧
    (c13_manager.reserve 0 ⟨"x90", [0]⟩ "x90" "mw" "" 1).available 0
      ⟨"y90", [1]⟩ "y90" "mw" "" 1 = .ok false ∧
    ((c13_manager.reserve 0 ⟨"x90", [0]⟩ "x90" "mw" "" 1).reserve 2
      ⟨"cz", [0, 1]⟩ "cz" "flux" "" 1).available 2 ⟨"cz", [0, 1]⟩ "cz" "flux" "" 1
      = .ok false ∧
    ((c13_manager.reserve 0 ⟨"x90", [0]⟩ "x90" "mw" "" 1).reserve 2
      ⟨"cz", [0, 1]⟩ "cz" "flux" "" 1).available 3 ⟨"cz", [0, 1]⟩ "cz" "flux" "" 1
      = .ok true :=
  ⟨rfl, rfl, rfl, rfl, rfl⟩

/-- C14, as stated, fails: the topology `(0, 1, 0), (1, 0, 0)` lists no pair twice,
the construction succeeds, and the two distinct pairs (0, 1) and (1, 0) both map to
edge 0. -/
theorem edge_pair_map_injective_counterexample :
    edge_resource_t.create c14_platform = .ok c14_resource ∧
      map_find c14_resource.qubits2edge (0, 1) = some 0 ∧
      map_find c14_resource.qubits2edge (1, 0) = some 0 ∧
      ((0, 1) : Nat × Nat) ≠ (1, 0) := by
  refine ⟨rfl, by decide, by decide, by decide⟩

/-- C14, amended. The pair-to-edge map is injective when the ids are: for every
topology edge list with pairwise distinct edge ids on which the construction of
`edge_resource_t` succeeds, the resulting pair-to-edge map sends no two distinct
ordered qubit pairs to the same edge id. -/
theorem edge_pair_map_injective (platform : quantum_platform) (r : edge_resource_t)
    (p1 p2 : Nat × Nat) (e : Nat)
    (hcreate : edge_resource_t.create platform = .ok r)
    (hids : (platform.topology_edges.map (fun t => t.2.2)).Nodup)
    (h1 : map_find r.qubits2edge p1 = some e) (h2 : map_find r.qubits2edge p2 = some e) :
    p1 = p2 := by
  unfold edge_resource_t.create at hcreate
  cases hin : edge_resource_t.ingest_topology platform.topology_edges [] with
  | error msg => simp [hin] at hcreate
  | ok m =>
    simp only [hin, Except.ok.injEq] at hcreate
    subst hcreate
    have hfind := edge_ingest_topology_find _ _ _ hin
    have m1 : (p1.1, p1.2, e) ∈ platform.topology_edges := by
      rcases (hfind p1 e).1 h1 with h | h
      · simp [map_find] at h
      · exact h
    have m2 : (p2.1, p2.2, e) ∈ platform.topology_edges := by
      rcases (hfind p2 e).1 h2 with h | h
      · simp [map_find] at h
      · exact h
    have heq := List.inj_on_of_nodup_map hids m1 m2 rfl
    simp only [Prod.mk.injEq, and_true] at heq
    exact Prod.ext heq.1 heq.2

theorem edge_pair_map_injective_witness :
    edge_resource_t.create c14_distinct_platform = .ok c14_distinct_resource ∧
      map_find c14_distinct_resource.qubits2edge (0, 1) = some 0 ∧
      ((0, 1) : Nat × Nat) = (0, 1) :=
  ⟨rfl, by decide,
    edge_pair_map_injective c14_distinct_platform c14_distinct_resource (0, 1) (0, 1) 0 rfl
      (by decide) (by decide) (by decide)⟩

/-- C15. Duplicate edge definition is rejected: the construction of
`edge_resource_t` raises exactly when the topology edge list has two entries with
the same ordered (src, dst) pair, and then it is the "re-defining edge"
exception; when it succeeds, every listed (src, dst, id) triple is in the
pair-to-edge map with exactly that id. -/
theorem edge_duplicate_definition_rejected (platform : quantum_platform) :
    ((∃ msg, edge_resource_t.create platform = .error msg) ↔
      ¬ (platform.topology_edges.map (fun t => (t.1, t.2.1))).Nodup) ∧
    (∀ msg, edge_resource_t.create platform = .error msg →
      msg = "[x] Error : re-defining edge !") ∧
    (∀ r, edge_resource_t.create platform = .ok r →
      ∀ s d e, (s, d, e) ∈ platform.topology_edges →
        map_find r.qubits2edge (s, d) = some e) := by
  have hok := edge_ingest_topology_ok_iff platform.topology_edges []
  simp only [map_find, implies_true, true_and] at hok
  refine ⟨?_, ?_, ?_⟩
  · unfold edge_resource_t.create
    cases hin : edge_resource_t.ingest_topology platform.topology_edges [] with
    | error msg =>
      constructor
      · intro _ hnd
        obtain ⟨m', hm'⟩ := hok.2 hnd
        rw [hin] at hm'
        cases hm'
      · intro _
        exact ⟨msg, rfl⟩
    | ok m =>
      have hnd := hok.1 ⟨m, hin⟩
      simp [hnd]
  · intro msg h
    unfold edge_resource_t.create at h
    have herr : ∀ (edges : List (Nat × Nat × Nat)) (m : List ((Nat × Nat) × Nat)) (msg : String),
        edge_resource_t.ingest_topology edges m = .error msg →
          msg = "[x] Error : re-defining edge !" := by
      intro edges
      induction edges with
      | nil => intro m msg h; simp [edge_resource_t.ingest_topology] at h
      | cons t edges ih =>
        intro m msg h
        obtain ⟨s, d, e0⟩ := t
        unfold edge_resource_t.ingest_topology at h
        cases hf : map_find m (s, d) with
        | some v =>
          simp only [hf, Except.error.injEq] at h
          exact h.symm
        | none =>
          simp only [hf] at h
          exact ih _ _ h
    cases hin : edge_resource_t.ingest_topology platform.topology_edges [] with
    | error msg' =>
      simp only [hin, Except.error.injEq] at h
      rw [← h]
      exact herr _ _ _ hin
    | ok m => simp [hin] at h
  · intro r h s d e hmem
    unfold edge_resource_t.create at h
    cases hin : edge_resource_t.ingest_topology platform.topology_edges [] with
    | error msg => simp [hin] at h
    | ok m =>
      simp only [hin, Except.ok.injEq] at h
      subst h
      exact (edge_ingest_topology_find _ _ _ hin (s, d) e).2 (Or.inr hmem)

/-- C16. Unrecognized kind is rejected: when `edge_resource_t(platform)` does not
raise where it is called, the construction of the resource manager raises exactly
when some declared kind name is none of `"qubits"`, `"qwgs"`, `"meas_units"`,
`"edges"`, and then it is the "Un-modelled resource" exception for a declared
name; when the construction succeeds, the names of the owned variants are the
declared kind names, one variant per name, in the iteration order of the
configuration. -/
theorem manager_unrecognized_kind_rejected (platform : quantum_platform)
    (hedge : "edges" ∈ platform.resources.map Prod.fst →
      ∃ r, edge_resource_t.create platform = .ok r) :
    ((∃ msg, resource_manager_t.create platform = .error msg) ↔
      ∃ n ∈ platform.resources.map Prod.fst,
        n ≠ "qubits" ∧ n ≠ "qwgs" ∧ n ≠ "meas_units" ∧ n ≠ "edges") ∧
    (∀ msg, resource_manager_t.create platform = .error msg →
      ∃ n ∈ platform.resources.map Prod.fst,
        msg = "[x] Error : Un-modelled resource: " ++ n ++ " !") ∧
    (∀ m, resource_manager_t.create platform = .ok m →
      m.resource_ptrs.map resource_t.name = platform.resources.map Prod.fst) := by
  have hok := manager_create_loop_ok_iff platform platform.resources [] hedge
  refine ⟨?_, ?_, ?_⟩
  · unfold resource_manager_t.create
    cases hl : resource_manager_t.create_loop platform platform.resources [] with
    | error msg =>
      constructor
      · intro _
        by_contra hnone
        have hall : ∀ n ∈ platform.resources.map Prod.fst,
            n = "qubits" ∨ n = "qwgs" ∨ n = "meas_units" ∨ n = "edges" := by
          intro n hn
          by_contra hn'
          simp only [not_or] at hn'
          exact hnone ⟨n, hn, hn'.1, hn'.2.1, hn'.2.2.1, hn'.2.2.2⟩
        obtain ⟨res, hres⟩ := hok.2 hall
        rw [hl] at hres
        cases hres
      · intro _
        exact ⟨msg, rfl⟩
    | ok res =>
      constructor
      · rintro ⟨msg, hmsg⟩
        cases hmsg
      · rintro ⟨n, hn, g1, g2, g3, g4⟩
        rcases hok.1 ⟨res, hl⟩ n hn with h | h | h | h
        · exact absurd h g1
        · exact absurd h g2
        · exact absurd h g3
        · exact absurd h g4
  · intro msg h
    unfold resource_manager_t.create at h
    cases hl : resource_manager_t.create_loop platform platform.resources [] with
    | error msg' =>
      simp only [hl, Except.error.injEq] at h
      rw [← h]
      exact manager_create_loop_error platform _ _ _ hedge hl
    | ok res => simp [hl] at h
  · intro m h
    unfold resource_manager_t.create at h
    cases hl : resource_manager_t.create_loop platform platform.resources [] with
    | error msg => simp [hl] at h
    | ok res =>
      simp only [hl, Except.ok.injEq] at h
      subst h
      have := (manager_create_loop_names platform _ _ _ hl).1
      simpa using this

theorem manager_unrecognized_kind_rejected_witness :
    ∃ msg, resource_manager_t.create c16_platform = .error msg :=
  (manager_unrecognized_kind_rejected c16_platform (fun h => absurd h (by decide))).1.2
    ⟨"detuned_qubits", by decide, by decide, by decide, by decide, by decide⟩

/-- C17. Category guards: when the operation type is not `"mw"`, not `"readout"`,
not `"flux"` respectively, the `available` of `qwg_resource_t`, `meas_resource_t`,
`edge_resource_t` answers `true` for every start cycle, instruction and state, and
its `reserve` returns the variant unchanged in every field; so the `reserve` of
the manager for an instruction of none of the three types changes nothing but
the busy-until vector of its qubit variants. -/
theorem category_guards (c d : Nat) (ins : gate) (n ot it : String) :
    (ot ≠ "mw" → ∀ r : qwg_resource_t,
      r.available c ins n ot it d = true ∧ r.reserve c ins n ot it d = r) ∧
    (ot ≠ "readout" → ∀ r : meas_resource_t,
      r.available c ins n ot it d = true ∧ r.reserve c ins n ot it d = r) ∧
    (ot ≠ "flux" → ∀ r : edge_resource_t,
      r.available c ins n ot it d = .ok true ∧ r.reserve c ins n ot it d = r) ∧
    (ot ≠ "mw" → ot ≠ "readout" → ot ≠ "flux" → ∀ m : resource_manager_t,
      (m.reserve c ins n ot it d).resource_ptrs = m.resource_ptrs.map (fun rptr =>
        match rptr with
        | .qubit r => .qubit { r with state := (r.reserve c ins n ot it d).state }
        | other => other)) := by
  refine ⟨?_, ?_, ?_, ?_⟩
  · intro h r
    simp [qwg_resource_t.available, qwg_resource_t.reserve, h]
  · intro h r
    simp [meas_resource_t.available, meas_resource_t.reserve, h]
  · intro h r
    simp [edge_resource_t.available, edge_resource_t.reserve, h]
  · intro h1 h2 h3 m
    simp only [resource_manager_t.reserve]
    apply List.map_congr_left
    intro rptr _
    cases rptr with
    | qubit r => rfl
    | qwg r => simp [resource_t.reserve, qwg_resource_t.reserve, h1]
    | meas r => simp [resource_t.reserve, meas_resource_t.reserve, h2]
    | edge r => simp [resource_t.reserve, edge_resource_t.reserve, h3]

theorem category_guards_witness :
    (c13_manager.reserve 4 ⟨"prepz", [1]⟩ "prepz" "none" "" 2).resource_ptrs
      = c13_manager.resource_ptrs.map (fun rptr =>
        match rptr with
        | .qubit r => .qubit { r with state :=
            (r.reserve 4 ⟨"prepz", [1]⟩ "prepz" "none" "" 2).state }
        | other => other) :=
  (category_guards 4 2 ⟨"prepz", [1]⟩ "prepz" "none" "").2.2.2 (by decide) (by decide)
    (by decide) c13_manager

/-- C18. Edge availability equals the check-set rule: for an `edge_resource_t`
with all indices in range, in any state, and a flux instruction whose operand
pair maps to edge `e`, `available(c, ins)` returns, and it returns `false` exactly
when some edge `x` among `e` and the stored conflict list of `e` has
`c < busy_until[x]`. -/
theorem edge_available_check_set (r : edge_resource_t) (c d q0 q1 e : Nat) (rest : List Nat)
    (ins : gate) (n it : String)
    (hwf : r.wf)
    (hops : ins.operands = q0 :: q1 :: rest)
    (hedge : map_find r.qubits2edge (q0, q1) = some e) :
    (∃ b, r.available c ins n "flux" it d = .ok b) ∧
    (r.available c ins n "flux" it d = .ok false ↔
      ∃ x, (x = e ∨ x ∈ map_at r.edge2edges e []) ∧ c < vec_get r.state x) := by
  rw [edge_available_mapped r c d q0 q1 e rest ins n it hops hedge]
  refine ⟨⟨_, rfl⟩, ?_⟩
  rw [Except.ok.injEq, Bool.eq_false_iff, ne_eq, edge_available_loop_iff]
  simp only [List.mem_append, List.mem_singleton, not_forall, not_le]
  constructor
  · rintro ⟨x, hx, hlt⟩
    exact ⟨x, hx.symm, hlt⟩
  · rintro ⟨x, hx, hlt⟩
    exact ⟨x, hx.symm, hlt⟩

theorem edge_available_check_set_witness :
    (∃ b, c8_resource.available 3 ⟨"cz", [0, 1]⟩ "cz" "flux" "" 1 = .ok b) ∧
    (c8_resource.available 3 ⟨"cz", [0, 1]⟩ "cz" "flux" "" 1 = .ok false ↔
      ∃ x, (x = 0 ∨ x ∈ map_at c8_resource.edge2edges 0 []) ∧ 3 < vec_get c8_resource.state x) :=
  edge_available_check_set c8_resource 3 1 0 1 0 [] ⟨"cz", [0, 1]⟩ "cz" ""
    (by simp [edge_resource_t.wf, c8_resource]) rfl (by decide)

/-- C22, as stated, fails: a drive-line resource with count 0 and an empty
qubit-to-line map has no mapping value at all, qubit 0 is below the qubit count
1, and yet `available` for a microwave-drive instruction on qubit 0 reads
`state[qubit2qwg[0]]`, that is `state[0]` of an empty vector. -/
theorem index_safety_counterexample :
    (qwg_resource_t.create c22_platform).wf ∧
      (∀ q ∈ [0], q < (qubit_resource_t.create c22_platform).count) ∧
      (qwg_resource_t.create c22_platform).count = 0 ∧
      (qwg_resource_t.create c22_platform).available_checked 0 ⟨"x", [0]⟩ "x" "mw" "" 1
        = none := by
  refine ⟨?_, by decide, rfl, rfl⟩
  simp [qwg_resource_t.wf, qwg_resource_t.create, c22_platform, quantum_platform.resources_at,
    map_at, map_find, ingest_units]

/-- C22, amended. Index safety and fixed unit count: if every operand qubit id is
below the qubit count, every qubit-to-line and qubit-to-unit mapping value is
below the respective count, every edge id in the pair-to-edge map and in the
stored conflict lists is below the edge count, the state vectors have `count`
entries, and the drive-line, measurement-unit and edge counts are at least 1,
then `available` and `reserve` of every variant make no subscript of a state
vector out of range (the checked run agrees with the unchecked one), and after
`reserve` every state vector still has exactly `count` entries and all indices
are still in range. -/
theorem index_safety (rq : qubit_resource_t) (rw : qwg_resource_t) (rm : meas_resource_t)
    (re : edge_resource_t) (c d : Nat) (ins : gate) (n ot it : String)
    (hq : rq.state.length = rq.count) (hops : ∀ q ∈ ins.operands, q < rq.count)
    (hw : rw.wf) (hm : rm.wf) (he : re.wf)
    (hwc : 1 ≤ rw.count) (hmc : 1 ≤ rm.count) (hec : 1 ≤ re.count) :
    (rq.available_checked c ins n ot it d = some (rq.available c ins n ot it d) ∧
      rq.reserve_checked c ins n ot it d = some (rq.reserve c ins n ot it d) ∧
      (rq.reserve c ins n ot it d).state.length = rq.count ∧
      (rq.reserve c ins n ot it d).count = rq.count) ∧
    (rw.available_checked c ins n ot it d = some (rw.available c ins n ot it d) ∧
      rw.reserve_checked c ins n ot it d = some (rw.reserve c ins n ot it d) ∧
      (rw.reserve c ins n ot it d).wf ∧ (rw.reserve c ins n ot it d).count = rw.count) ∧
    (rm.available_checked c ins n ot it d = some (rm.available c ins n ot it d) ∧
      rm.reserve_checked c ins n ot it d = some (rm.reserve c ins n ot it d) ∧
      (rm.reserve c ins n ot it d).wf ∧ (rm.reserve c ins n ot it d).count = rm.count) ∧
    (re.available_checked c ins n ot it d = some (re.available c ins n ot it d) ∧
      re.reserve_checked c ins n ot it d = some (re.reserve c ins n ot it d) ∧
      (re.reserve c ins n ot it d).wf ∧ (re.reserve c ins n ot it d).count = re.count) :=
  ⟨qubit_index_safe rq c d ins n ot it hq hops, qwg_index_safe rw c d ins n ot it hw hwc,
    meas_index_safe rm c d ins n ot it hm hmc, edge_index_safe re c d ins n ot it he hec⟩

theorem index_safety_witness :
    (qwg_resource_t.create c3_platform).available_checked 0 ⟨"x", [0, 1]⟩ "x" "mw" "" 2
        = some ((qwg_resource_t.create c3_platform).available 0 ⟨"x", [0, 1]⟩ "x" "mw" "" 2) ∧
      c8_resource.reserve_checked 0 ⟨"x", [0, 1]⟩ "x" "mw" "" 2
        = some (c8_resource.reserve 0 ⟨"x", [0, 1]⟩ "x" "mw" "" 2) :=
  ⟨(index_safety (qubit_resource_t.create c1_platform) (qwg_resource_t.create c3_platform)
      (meas_resource_t.create c5_platform) c8_resource 0 2 ⟨"x", [0, 1]⟩ "x" "mw" ""
      (by decide) (by decide)
      (by simp [qwg_resource_t.wf, qwg_resource_t.create, c3_platform,
        quantum_platform.resources_at, map_at, map_find, ingest_units, map_assign])
      (by simp [meas_resource_t.wf, meas_resource_t.create, c5_platform,
        quantum_platform.resources_at, map_at, map_find, ingest_units, map_assign])
      (by simp [edge_resource_t.wf, c8_resource]) (by decide) (by decide) (by decide)).2.1.1,
    (index_safety (qubit_resource_t.create c1_platform) (qwg_resource_t.create c3_platform)
      (meas_resource_t.create c5_platform) c8_resource 0 2 ⟨"x", [0, 1]⟩ "x" "mw" ""
      (by decide) (by decide)
      (by simp [qwg_resource_t.wf, qwg_resource_t.create, c3_platform,
        quantum_platform.resources_at, map_at, map_find, ingest_units, map_assign])
      (by simp [meas_resource_t.wf, meas_resource_t.create, c5_platform,
        quantum_platform.resources_at, map_at, map_find, ingest_units, map_assign])
      (by simp [edge_resource_t.wf, c8_resource]) (by decide) (by decide) (by decide)).2.2.2.2.1⟩

end arch
end ql
